import Mathlib

/-!
# The helpers of `src/script.js`

A shallow embedding of `parseCsv`, `parseDataUrl`, `decodeBase64ToText` and
`fetchUserCreationDate` of `src/script.js`, and the properties of them that the
specification states.

Modelling conventions.

* A JavaScript string is a `List Char`.  Every character the code inspects (CR, LF, the
  double quote, comma, semicolon, tab, U+FEFF, the digits, signs and white space read by
  `parseFloat`) is a single UTF-16 code unit, and no operation of `parseCsv` depends on how a
  character outside the Basic Multilingual Plane is split into code units.  Strings with an
  unpaired surrogate are outside the model.
* Operations that can throw in JavaScript (a method call on `undefined`) return `Except`;
  a `try` .. `catch` is a case distinction on such a result.
* `String.prototype.split`, `String.prototype.replace` with a global pattern,
  `String.prototype.substring`, `parseFloat` and `decodeURIComponent` are library functions;
  they are modelled from ECMA-262.  `atob` is modelled from the HTML standard
  (forgiving-base64 decode) and `TextDecoder` from the Encoding standard.
* `fetchUserCreationDate` is asynchronous; it is modelled as a function of what `fetch`
  does with the request, and its result is the settlement of the promise it returns.
-/

namespace Script

/-- A JavaScript string, as the list of its characters. -/
abbrev JsString := List Char

/-- The exception a JavaScript method call on `undefined` raises. -/
inductive JsError where
  | typeError
  deriving DecidableEq, Repr

/-- The object `{ headers, rows }` that `parseCsv` returns; `headers = none` is `null`. -/
structure ParseResult where
  headers : Option (List JsString)
  rows : List (List JsString)
  deriving DecidableEq, Repr

/-- Equality of results is decidable, so that concrete runs can be evaluated. -/
instance instDecidableEqResult : DecidableEq (Except JsError ParseResult) := fun a b =>
  match a, b with
  | Except.ok x, Except.ok y =>
    if h : x = y then isTrue (congrArg Except.ok h)
    else isFalse (fun h2 => h (Except.ok.inj h2))
  | Except.error x, Except.error y =>
    if h : x = y then isTrue (congrArg Except.error h)
    else isFalse (fun h2 => h (Except.error.inj h2))
  | Except.ok _, Except.error _ => isFalse (fun h => Except.noConfusion h)
  | Except.error _, Except.ok _ => isFalse (fun h => Except.noConfusion h)

/-! ## Library functions -/

/-- The call `s.replace(/ab/g, r)` for a pattern of two literal characters `a`, `b`: the matches are
found left to right and do not overlap. -/
def replacePair (a b r : Char) : JsString → JsString
  | [] => []
  | [c] => [c]
  | c :: c2 :: rest =>
    if c = a ∧ c2 = b then r :: replacePair a b r rest
    else c :: replacePair a b r (c2 :: rest)

/-- The call `s.replace(/a/g, r)` for a pattern of one literal character `a`. -/
def replaceChar (a r : Char) (s : JsString) : JsString :=
  s.map (fun c => if c = a then r else c)

/-- The call `s.substring(a, b)`: both indices are clamped to the length and swapped when `a > b`. -/
def substring (s : JsString) (a b : Nat) : JsString :=
  let a1 := min a s.length
  let b1 := min b s.length
  (s.take (max a1 b1)).drop (min a1 b1)

/-- Puts a character in front of the first piece of a split. -/
def consHead (c : Char) : List JsString → List JsString
  | [] => [[c]]
  | f :: fs => (c :: f) :: fs

/-- The call `s.split(sep)` for a separator that consumes exactly one character: `isSep c rest` tells
whether the separator matches at a character `c` that is followed by `rest`.  The pieces are
the substrings between consecutive matches; the empty string gives the single piece `""`. -/
def splitBy (isSep : Char → JsString → Bool) : JsString → List JsString
  | [] => [[]]
  | c :: rest =>
    if isSep c rest then [] :: splitBy isSep rest
    else consHead c (splitBy isSep rest)

/-- The call `text.split('\n')`. -/
def splitLines (text : JsString) : List JsString :=
  splitBy (fun c _ => c == '\n') text

/-- The two classes of characters the lookahead pattern tells apart. -/
inductive QSym where
  | quote
  | other
  deriving DecidableEq, Repr

/-- The class of a character: the literal `"` of the pattern matches `quote`, the
character class `[^"]` matches `other`. -/
def classify (c : Char) : QSym :=
  if c = '"' then QSym.quote else QSym.other

/-- The body of the lookahead, `(?:[^"]*"[^"]*")*[^"]*`, as a regular expression over the
two character classes. -/
def lookaheadRe : RegularExpression QSym :=
  RegularExpression.star
      (RegularExpression.star (RegularExpression.char QSym.other)
        * RegularExpression.char QSym.quote
        * RegularExpression.star (RegularExpression.char QSym.other)
        * RegularExpression.char QSym.quote)
    * RegularExpression.star (RegularExpression.char QSym.other)

/-- The lookahead `(?=(?:[^"]*"[^"]*")*[^"]*$)` at a position followed by `rest`: the pattern
has no `m` flag, so `$` is the end of the string and the body must match all of `rest`. -/
def lookahead (rest : JsString) : Bool :=
  lookaheadRe.rmatch (rest.map classify)

/-- Characters that `parseFloat` skips at the start of its argument (`StrWhiteSpaceChar`:
`WhiteSpace` and `LineTerminator`). -/
def isStrWhiteSpaceChar (c : Char) : Bool :=
  c.toNat ∈ [0x9, 0xA, 0xB, 0xC, 0xD, 0x20, 0xA0, 0x1680, 0x2028, 0x2029, 0x202F, 0x205F,
      0x3000, 0xFEFF]
    || (0x2000 ≤ c.toNat && c.toNat ≤ 0x200A)

/-- A decimal digit `0` .. `9`. -/
def isDecimalDigit (c : Char) : Bool :=
  0x30 ≤ c.toNat && c.toNat ≤ 0x39

/-- Whether some initial segment of `s` is a `StrUnsignedDecimalLiteral`: `s` starts with
`Infinity`, with a digit, or with a dot followed by a digit. -/
def startsUnsignedLiteral (s : JsString) : Bool :=
  "Infinity".toList.isPrefixOf s ||
    match s with
    | [] => false
    | c :: rest =>
      isDecimalDigit c ||
        (c == '.' && match rest with
          | [] => false
          | c2 :: _ => isDecimalDigit c2)

/-- Whether some initial segment of `s` is a `StrDecimalLiteral` (an optional sign, then a
`StrUnsignedDecimalLiteral`). -/
def startsDecimalLiteral (s : JsString) : Bool :=
  match s with
  | [] => false
  | c :: rest =>
    if c = '+' ∨ c = '-' then startsUnsignedLiteral rest else startsUnsignedLiteral (c :: rest)

/-- The test `isNaN(parseFloat(cell))`: `parseFloat` trims leading white space and returns `NaN`
exactly when no initial segment of what is left is a `StrDecimalLiteral`. -/
def parseFloatIsNaN (cell : JsString) : Bool :=
  !startsDecimalLiteral (cell.dropWhile isStrWhiteSpaceChar)

/-! ## `parseCsv` -/

/-- The statement `text = text.replace(/\r\n/g, '\n').replace(/\r/g, '\n')`. -/
def normalizeLineEndings (text : JsString) : JsString :=
  replaceChar '\r' '\n' (replacePair '\r' '\n' '\n' text)

/-- The statement `if (text.charCodeAt(0) === 0xFEFF) text = text.slice(1)`. -/
def stripBom (text : JsString) : JsString :=
  if text.head?.map Char.toNat = some 0xFEFF then text.drop 1 else text

/-- The candidates, `[',', ';', '\t']`. -/
def delimiters : List Char := [',', ';', '\t']

/-- The count `(line.match(new RegExp(delim, 'g')) || []).length` for a candidate `delim`, none of
which is a pattern metacharacter: the number of occurrences of `delim` in `line`. -/
def countMatches (delim : Char) (line : JsString) : Nat :=
  line.count delim

/-- One iteration of the detection loop on the state `(delimiter, maxCount)`.  The method
call `text.split('\n')[0].match(..)` throws when the indexed element is `undefined`. -/
def detectStep (text : JsString) (st : Char × Nat) (delim : Char) :
    Except JsError (Char × Nat) :=
  match (splitLines text)[0]? with
  | none => Except.error JsError.typeError
  | some first =>
    let count := countMatches delim first
    if count > st.2 then Except.ok (delim, count) else Except.ok st

/-- The detection loop, started at `delimiter = ','` and `maxCount = 0`. -/
def detectDelimiter (text : JsString) : Except JsError Char :=
  (delimiters.foldlM (detectStep text) (',', 0)).map Prod.fst

/-- The call `row.split(regex)` with `regex` the delimiter followed by the lookahead. -/
def splitRow (delimiter : Char) (row : JsString) : List JsString :=
  splitBy (fun c rest => c == delimiter && lookahead rest) row

/-- The callback applied to every raw field: surrounding quotes are removed and doubled
quotes unescaped.  (`field.length - 1` is never negative in the branch that uses it.) -/
def unquoteField (field : JsString) : JsString :=
  if field.head? = some '"' ∧ field.getLast? = some '"' then
    replacePair '"' '"' '"' (substring field 1 (field.length - 1))
  else field

/-- The callback applied to every line. -/
def parseRow (delimiter : Char) (row : JsString) : List JsString :=
  (splitRow delimiter row).map unquoteField

/-- The filter `row.length > 1 || row[0] !== ''`; `row[0]` is `undefined` on an empty row. -/
def keepRow (row : List JsString) : Bool :=
  decide (row.length > 1) || row[0]? != some []

/-- The rows after splitting, unquoting and filtering. -/
def parseRows (delimiter : Char) (text : JsString) : List (List JsString) :=
  ((splitLines text).map (parseRow delimiter)).filter keepRow

/-- Header inference: everything from `if (rows.length === 0)` on.  The method call
`firstRow.every(..)` throws when `rows[0]` is `undefined`. -/
def inferHeader (rows : List (List JsString)) : Except JsError ParseResult :=
  if rows.length = 0 then Except.ok { headers := some [], rows := [] }
  else
    match rows[0]? with
    | none => Except.error JsError.typeError
    | some firstRow =>
      if firstRow.all parseFloatIsNaN then
        Except.ok { headers := some firstRow, rows := rows.drop 1 }
      else Except.ok { headers := none, rows := rows }

/-- The text that is sniffed and split: line endings normalised, then the BOM removed. -/
def preprocess (text : JsString) : JsString :=
  stripBom (normalizeLineEndings text)

/-- The function `parseCsv(text)`. -/
def parseCsv (text : JsString) : Except JsError ParseResult :=
  match detectDelimiter (preprocess text) with
  | Except.error e => Except.error e
  | Except.ok delimiter => inferHeader (parseRows delimiter (preprocess text))

/-! ## Definitions used to state the properties -/

/-- The loop body of the delimiter detection once the first line is at hand. -/
def sniffStep (first : JsString) (st : Char × Nat) (delim : Char) : Char × Nat :=
  if countMatches delim first > st.2 then (delim, countMatches delim first) else st

/-- The delimiter the detection loop ends with, as a function of the first line. -/
def pickDelimiter (first : JsString) : Char :=
  (delimiters.foldl (sniffStep first) (',', 0)).1

/-- The delimiter `parseCsv` uses on `text`.  The detection never throws
(`detectDelimiter_preprocess`), so the second branch is never taken. -/
def activeDelimiter (text : JsString) : Char :=
  match detectDelimiter (preprocess text) with
  | Except.ok d => d
  | Except.error _ => ','

/-- The rows of a result with the header row, when one was inferred, put back in front.
A row is never empty, so `headers = []` only occurs in the result for no rows at all. -/
def keptRows (r : ParseResult) : List (List JsString) :=
  match r.headers with
  | none => r.rows
  | some [] => r.rows
  | some (c :: cs) => (c :: cs) :: r.rows

/-- The byte-order mark U+FEFF. -/
def bom : Char := Char.ofNat 0xFEFF

/-- The text with every CRLF and every lone CR replaced by one LF, in a single pass. -/
def canonicalLF : JsString → JsString
  | [] => []
  | [c] => if c = '\r' then ['\n'] else [c]
  | c :: c2 :: rest =>
    if c = '\r' then
      if c2 = '\n' then '\n' :: canonicalLF rest else '\n' :: canonicalLF (c2 :: rest)
    else c :: canonicalLF (c2 :: rest)

/-- The text with every LF replaced by CRLF. -/
def lfToCrlf (u : JsString) : JsString :=
  u.flatMap (fun c => if c = '\n' then ['\r', '\n'] else [c])

/-- The text with every LF replaced by a lone CR. -/
def lfToCr (u : JsString) : JsString :=
  u.map (fun c => if c = '\n' then '\r' else c)

/-- Whether position `i` of the line `row` holds the delimiter and the text from just after
it to the end of the line contains an even number of double quotes. -/
def isCut (d : Char) (row : JsString) (i : Nat) : Bool :=
  row[i]? == some d && (row.drop (i + 1)).count '"' % 2 == 0

/-- The cut points of a line, in increasing order. -/
def cutPoints (d : Char) (line : JsString) : List Nat :=
  (List.range line.length).filter (isCut d line)

/-- The pieces of `line` from position `start` on, cut at the positions `cuts` (increasing):
each piece runs from just after a cut to just before the next one. -/
def piecesFrom (line : JsString) (start : Nat) : List Nat → List JsString
  | [] => [line.drop start]
  | i :: cuts => (line.take i).drop start :: piecesFrom line (i + 1) cuts

/-- A field with every double quote doubled. -/
def escapeQuotes (f : JsString) : JsString :=
  f.flatMap (fun c => if c = '"' then ['"', '"'] else [c])

/-- A field wrapped in double quotes, its own double quotes doubled. -/
def quoteField (f : JsString) : JsString :=
  '"' :: (escapeQuotes f ++ ['"'])

/-- A field to serialise comes with the choice of quoting it (`true`) or writing it
verbatim (`false`). -/
def serialiseField (qf : Bool × JsString) : JsString :=
  if qf.1 then quoteField qf.2 else qf.2

/-- Fields joined with commas, rows joined with LF. -/
def serialise (rows : List (List (Bool × JsString))) : JsString :=
  List.intercalate ['\n'] (rows.map (fun r => List.intercalate [','] (r.map serialiseField)))

/-- The field values of the rows to serialise. -/
def fieldValues (rows : List (List (Bool × JsString))) : List (List JsString) :=
  rows.map (fun r => r.map Prod.snd)

/-- Field unquoting as the specification words it: when the field begins and ends with a
double quote, one leading and one trailing character are removed and doubled quotes
replaced; otherwise the field is left as it is. -/
def unquoteFieldSpec (field : JsString) : JsString :=
  if field.head? = some '"' ∧ field.getLast? = some '"' then
    replacePair '"' '"' '"' (field.drop 1).dropLast
  else field

/-- One quoted group `[^"]*"[^"]*"` of the lookahead, over the two character classes. -/
def IsGroup (g : List QSym) : Prop :=
  ∃ a b, QSym.quote ∉ a ∧ QSym.quote ∉ b ∧ g = a ++ QSym.quote :: (b ++ [QSym.quote])

/-- Membership in the language of the lookahead body, spelled out: quoted groups, then a
rest without quotes. -/
def IsBalanced (x : List QSym) : Prop :=
  ∃ (L : List (List QSym)) (n : List QSym),
    (∀ g ∈ L, IsGroup g) ∧ QSym.quote ∉ n ∧ x = L.flatten ++ n

/-- A string with an odd number of quotes: no quote, then a quote, then a balanced rest. -/
def IsOpen (x : List QSym) : Prop :=
  ∃ b e, QSym.quote ∉ b ∧ IsBalanced e ∧ x = b ++ QSym.quote :: e


/-- The two states of the scan of the design note. -/
inductive ScanState where
  | unquoted
  | quoted
  deriving DecidableEq, Repr

/-- The state after a double quote. -/
def ScanState.toggle : ScanState → ScanState
  | ScanState.unquoted => ScanState.quoted
  | ScanState.quoted => ScanState.unquoted

/-- Row splitting as the design note of the specification words it: a left-to-right scan
that toggles its state on each double quote and cuts at a delimiter only in the state
`unquoted`. -/
def scanSplit (d : Char) : ScanState → JsString → List JsString
  | _, [] => [[]]
  | st, c :: rest =>
    if c = '"' then consHead c (scanSplit d st.toggle rest)
    else if c = d ∧ st = ScanState.unquoted then [] :: scanSplit d st rest
    else consHead c (scanSplit d st rest)

/-- The scan of a whole line, started outside a quoted span. -/
def splitRowScan (d : Char) (row : JsString) : List JsString :=
  scanSplit d ScanState.unquoted row

/-! ## Decoding built-ins -/

/-- The exceptions of the decoding built-ins: `URIError` of `decodeURIComponent` and the
`InvalidCharacterError` of `atob`. -/
inductive DecodeError where
  | uriError
  | invalidCharacter
  deriving DecidableEq, Repr

/-- Equality of the outcomes of fallible code is decidable when that of errors and of
values is, so that concrete runs can be evaluated. -/
instance instDecidableEqExcept {ε α : Type} [DecidableEq ε] [DecidableEq α] :
    DecidableEq (Except ε α) := fun a b =>
  match a, b with
  | Except.ok x, Except.ok y =>
    if h : x = y then isTrue (congrArg Except.ok h)
    else isFalse (fun h2 => h (Except.ok.inj h2))
  | Except.error x, Except.error y =>
    if h : x = y then isTrue (congrArg Except.error h)
    else isFalse (fun h2 => h (Except.error.inj h2))
  | Except.ok _, Except.error _ => isFalse (fun h => Except.noConfusion h)
  | Except.error _, Except.ok _ => isFalse (fun h => Except.noConfusion h)

/-- The value of a hexadecimal digit. -/
def hexValue (c : Char) : Option Nat :=
  if 0x30 ≤ c.toNat ∧ c.toNat ≤ 0x39 then some (c.toNat - 0x30)
  else if 0x41 ≤ c.toNat ∧ c.toNat ≤ 0x46 then some (c.toNat - 0x41 + 10)
  else if 0x61 ≤ c.toNat ∧ c.toNat ≤ 0x66 then some (c.toNat - 0x61 + 10)
  else none

/-- The abstract operation `ParseHexOctet` on the two characters after a percent sign. -/
def parseHexOctet (c1 c2 : Char) : Option Nat :=
  match hexValue c1, hexValue c2 with
  | some h, some l => some (16 * h + l)
  | _, _ => none

/-- One decoded octet in the abstract operation `Decode` of ECMA-262 (with an empty set of
preserved characters).  The state is `none` between characters and
`some (k, v, lo)` inside a UTF-8 sequence: `k` continuation octets are still to come, `v`
holds the bits read so far and `lo` is the least code point the sequence may encode.  The
result is the character completed by the octet, if any, and the next state; every octet
sequence that is not the UTF-8 encoding of a code point is a `URIError`. -/
def decodeOctet (st : Option (Nat × Nat × Nat)) (b : Nat) :
    Except DecodeError (Option Char × Option (Nat × Nat × Nat)) :=
  match st with
  | none =>
    if b < 0x80 then Except.ok (some (Char.ofNat b), none)
    else if b < 0xC0 then Except.error DecodeError.uriError
    else if b < 0xE0 then Except.ok (none, some (1, b % 0x20, 0x80))
    else if b < 0xF0 then Except.ok (none, some (2, b % 0x10, 0x800))
    else if b < 0xF8 then Except.ok (none, some (3, b % 0x08, 0x10000))
    else Except.error DecodeError.uriError
  | some (k, v, lo) =>
    if 0x80 ≤ b ∧ b < 0xC0 then
      let v2 := v * 0x40 + b % 0x40
      if k ≤ 1 then
        if lo ≤ v2 ∧ v2 ≤ 0x10FFFF ∧ ¬ (0xD800 ≤ v2 ∧ v2 ≤ 0xDFFF) then
          Except.ok (some (Char.ofNat v2), none)
        else Except.error DecodeError.uriError
      else Except.ok (none, some (k - 1, v2, lo))
    else Except.error DecodeError.uriError

/-- Puts a decoded character, if any, in front of the rest of the output. -/
def emit (c : Option Char) (r : Except DecodeError JsString) : Except DecodeError JsString :=
  match c, r with
  | _, Except.error e => Except.error e
  | none, Except.ok s => Except.ok s
  | some c, Except.ok s => Except.ok (c :: s)

/-- The loop of `Decode`: a percent sign must be followed by two hexadecimal digits, and
inside a UTF-8 sequence only escapes may follow. -/
def decodeFrom : Option (Nat × Nat × Nat) → JsString → Except DecodeError JsString
  | none, [] => Except.ok []
  | some _, [] => Except.error DecodeError.uriError
  | st, [c] =>
    if c = '%' then Except.error DecodeError.uriError
    else if st.isSome then Except.error DecodeError.uriError
    else Except.ok [c]
  | st, [c, c1] =>
    if c = '%' then Except.error DecodeError.uriError
    else if st.isSome then Except.error DecodeError.uriError
    else emit (some c) (decodeFrom none [c1])
  | st, c :: c1 :: c2 :: rest =>
    if c = '%' then
      match parseHexOctet c1 c2 with
      | none => Except.error DecodeError.uriError
      | some b =>
        match decodeOctet st b with
        | Except.error e => Except.error e
        | Except.ok (out, st2) => emit out (decodeFrom st2 rest)
    else if st.isSome then Except.error DecodeError.uriError
    else emit (some c) (decodeFrom none (c1 :: c2 :: rest))

/-- The built-in `decodeURIComponent(s)`. -/
def decodeURIComponent (s : JsString) : Except DecodeError JsString :=
  decodeFrom none s

/-- ASCII white space, which `atob` removes: tab, LF, FF, CR and space. -/
def isAsciiWhitespace (c : Char) : Bool :=
  c.toNat ∈ [0x9, 0xA, 0xC, 0xD, 0x20]

/-- The value of a character of the base64 alphabet. -/
def base64Value (c : Char) : Option Nat :=
  if 0x41 ≤ c.toNat ∧ c.toNat ≤ 0x5A then some (c.toNat - 0x41)
  else if 0x61 ≤ c.toNat ∧ c.toNat ≤ 0x7A then some (c.toNat - 0x61 + 26)
  else if 0x30 ≤ c.toNat ∧ c.toNat ≤ 0x39 then some (c.toNat - 0x30 + 52)
  else if c = '+' then some 62
  else if c = '/' then some 63
  else none

/-- The values of all characters, or `none` when one is outside the base64 alphabet. -/
def base64Values : JsString → Option (List Nat)
  | [] => some []
  | c :: rest =>
    match base64Value c, base64Values rest with
    | some v, some vs => some (v :: vs)
    | _, _ => none

/-- The octets of a list of six-bit values: three for every four values, and one or two
for the two or three values left at the end, whose surplus bits are dropped. -/
def sextetsToOctets : List Nat → List Nat
  | a :: b :: c :: d :: rest =>
    (a * 4 + b / 16) :: (b % 16 * 16 + c / 4) :: (c % 4 * 64 + d) :: sextetsToOctets rest
  | [a, b, c] => [a * 4 + b / 16, b % 16 * 16 + c / 4]
  | [a, b] => [a * 4 + b / 16]
  | _ => []

/-- The padding removal of forgiving-base64 decode: when the length is a multiple of four,
one or two `=` at the end are removed. -/
def stripPadding (s : JsString) : JsString :=
  if s.length % 4 = 0 then
    if s.getLast? = some '=' then
      if s.dropLast.getLast? = some '=' then s.dropLast.dropLast else s.dropLast
    else s
  else s

/-- The built-in `atob(data)`: forgiving-base64 decode of the HTML standard.  The result
is a binary string, one character per octet. -/
def atob (data : JsString) : Except DecodeError JsString :=
  let s := stripPadding (data.filter (fun c => !isAsciiWhitespace c))
  if s.length % 4 = 1 then Except.error DecodeError.invalidCharacter
  else
    match base64Values s with
    | none => Except.error DecodeError.invalidCharacter
    | some vs => Except.ok ((sextetsToOctets vs).map Char.ofNat)

/-- The replacement character U+FFFD. -/
def replacementChar : Char := Char.ofNat 0xFFFD

/-- What the UTF-8 decoder of the Encoding standard does with an octet that starts a
character: an ASCII character (`Sum.inl (some c)`), a malformed octet (`Sum.inl none`), or
the state `(needed, code point, lower, upper)` after a lead octet. -/
def utf8Lead (b : Nat) : Option Char ⊕ (Nat × Nat × Nat × Nat) :=
  if b < 0x80 then Sum.inl (some (Char.ofNat b))
  else if 0xC2 ≤ b ∧ b ≤ 0xDF then Sum.inr (1, b % 0x20, 0x80, 0xBF)
  else if 0xE0 ≤ b ∧ b ≤ 0xEF then
    Sum.inr (2, b % 0x10, if b = 0xE0 then 0xA0 else 0x80, if b = 0xED then 0x9F else 0xBF)
  else if 0xF0 ≤ b ∧ b ≤ 0xF4 then
    Sum.inr (3, b % 0x08, if b = 0xF0 then 0x90 else 0x80, if b = 0xF4 then 0x8F else 0xBF)
  else Sum.inl none

/-- The UTF-8 decoder of the Encoding standard with error mode replacement: a malformed
sequence gives U+FFFD, and an octet that cannot continue a sequence is read again as the
start of a character. -/
def utf8DecodeFrom : Option (Nat × Nat × Nat × Nat) → List Nat → JsString
  | none, [] => []
  | some _, [] => [replacementChar]
  | none, b :: rest =>
    match utf8Lead b with
    | Sum.inl (some c) => c :: utf8DecodeFrom none rest
    | Sum.inl none => replacementChar :: utf8DecodeFrom none rest
    | Sum.inr st => utf8DecodeFrom (some st) rest
  | some (needed, cp, lower, upper), b :: rest =>
    if lower ≤ b ∧ b ≤ upper then
      if needed ≤ 1 then Char.ofNat (cp * 0x40 + b % 0x40) :: utf8DecodeFrom none rest
      else utf8DecodeFrom (some (needed - 1, cp * 0x40 + b % 0x40, 0x80, 0xBF)) rest
    else
      match utf8Lead b with
      | Sum.inl (some c) => replacementChar :: c :: utf8DecodeFrom none rest
      | Sum.inl none => replacementChar :: replacementChar :: utf8DecodeFrom none rest
      | Sum.inr st => replacementChar :: utf8DecodeFrom (some st) rest

/-- The call `new TextDecoder('utf-8').decode(bytes)`: the octets are decoded with
replacement, and a byte-order mark at the start of the output is removed. -/
def textDecode (bytes : List Nat) : JsString :=
  match utf8DecodeFrom none bytes with
  | [] => []
  | c :: rest => if c.toNat = 0xFEFF then rest else c :: rest

/-- The array `Uint8Array.from(bytes, c => c.charCodeAt(0))`: every code is reduced
modulo 256. -/
def toUint8Array (bytes : JsString) : List Nat :=
  bytes.map (fun c => c.toNat % 256)

/-- The conversion `ToString` of an argument that is a string or `undefined`. -/
def toStringArg : Option JsString → JsString
  | some s => s
  | none => "undefined".toList

/-! ## `decodeBase64ToText` and `parseDataUrl` -/

/-- The function `decodeBase64ToText(b64)`: the `catch` branch returns `''`. -/
def decodeBase64ToText (b64 : JsString) : JsString :=
  match atob b64 with
  | Except.ok bytes => textDecode (toUint8Array bytes)
  | Except.error _ => []

/-- The object `{ mime, isBase64, text }` that `parseDataUrl` returns. -/
structure DataUrl where
  mime : JsString
  isBase64 : Bool
  text : JsString
  deriving DecidableEq, Repr

/-- The `if (isBase64) .. else ..` statement of `parseDataUrl`, which assigns `text`
(initially `''`) unless the decoding throws; `payload` is `undefined` when the URL has no
comma. -/
def decodePayload (isBase64 : Bool) (payload : Option JsString) : JsString :=
  if isBase64 then
    match atob (toStringArg payload) with
    | Except.ok bytes => textDecode (toUint8Array bytes)
    | Except.error _ => []
  else
    match decodeURIComponent (toStringArg payload) with
    | Except.ok s => s
    | Except.error _ => []

/-- The function `parseDataUrl(url)`; `none` is `null`.  The method call
`header.split(';')` throws when `parts[0]` is `undefined`. -/
def parseDataUrl (url : JsString) : Except JsError (Option DataUrl) :=
  if !"data:".toList.isPrefixOf url then Except.ok none
  else
    let parts := splitBy (fun c _ => c == ',') (substring url 5 url.length)
    match parts[0]? with
    | none => Except.error JsError.typeError
    | some header =>
      let payload := parts[1]?
      let mimeParts := splitBy (fun c _ => c == ';') header
      let mime :=
        match mimeParts[0]? with
        | some m => if m = [] then "text/plain".toList else m
        | none => "text/plain".toList
      let isBase64 := mimeParts.contains "base64".toList
      Except.ok (some { mime := mime, isBase64 := isBase64,
                        text := decodePayload isBase64 payload })

/-- The header of a data URL as the specification words it: the text between `data:` and
the first comma (all the rest when there is no comma). -/
def dataUrlHeader (url : JsString) : JsString :=
  (url.drop 5).takeWhile (fun c => c != ',')

/-- The MIME type as the specification words it: the part of the header before its first
semicolon, or `text/plain` when that part is empty. -/
def headerMime (header : JsString) : JsString :=
  if header.takeWhile (fun c => c != ';') = [] then "text/plain".toList
  else header.takeWhile (fun c => c != ';')

/-- The variable `payload` of `parseDataUrl`: the text between the first and the second
comma of what follows `data:`, and `undefined` when there is no comma. -/
def dataUrlPayload (url : JsString) : Option JsString :=
  match (url.drop 5).dropWhile (fun c => c != ',') with
  | [] => none
  | _ :: rest => some (rest.takeWhile (fun c => c != ','))

/-- The payload of a data URL as the specification words it: everything after the first
comma of what follows `data:`, further commas included; `none` when there is no comma. -/
def dataUrlData (url : JsString) : Option JsString :=
  match (url.drop 5).dropWhile (fun c => c != ',') with
  | [] => none
  | _ :: rest => some rest

/-! ## `fetchUserCreationDate` -/

/-- A value thrown by the code or by the platform, as far as `fetchUserCreationDate` tells
such values apart: an instance of `TypeError`, an object `new Error(message)`, or any other
value, which is not a `TypeError` (a `SyntaxError` of `response.json()`, an abort). -/
inductive JsThrown where
  | typeError
  | error (message : JsString)
  | other (code : Nat)
  deriving DecidableEq, Repr

/-- The value `data` that `response.json()` resolves to, as far as the code reads it: it is
`null`, or a value whose property `created_at` reads as `createdAt` (a value of `α`, which
stands for the JavaScript values, `undefined` included). -/
inductive JsonData (α : Type) where
  | null
  | value (createdAt : α)

/-- The response that `fetch` resolves to: the fields `ok` and `status` and the outcome
of `response.json()`. -/
structure FetchResponse (α : Type) where
  ok : Bool
  status : Nat
  json : Except JsThrown (JsonData α)

/-- The arguments of the call `fetch(url, { headers })`. -/
structure FetchRequest where
  url : JsString
  headers : List (JsString × JsString)
  deriving DecidableEq, Repr

/-- The request of `fetchUserCreationDate(username, token)`: the `Authorization` header is
added when `token` is truthy, that is a non-empty string. -/
def buildRequest (username : JsString) (token : Option JsString) : FetchRequest :=
  { url := "https://api.github.com/users/".toList ++ username
    headers :=
      [("Accept".toList, "application/vnd.github.v3+json".toList),
        ("User-Agent".toList, "GitHub-User-Creation-Date-Fetcher".toList)] ++
      match token with
      | some (c :: cs) => [("Authorization".toList, "token ".toList ++ (c :: cs))]
      | _ => [] }

/-- The body of the `try` block, given the outcome of `fetch`: a rejected promise is an
exception at the `await`, and reading `created_at` of `null` throws a `TypeError`. -/
def tryFetch {α : Type} (outcome : Except JsThrown (FetchResponse α)) : Except JsThrown α :=
  match outcome with
  | Except.error e => Except.error e
  | Except.ok response =>
    if !response.ok then
      if response.status = 404 then Except.error (JsThrown.error "User not found".toList)
      else if response.status = 403 then
        Except.error (JsThrown.error
          "Rate limit exceeded. Please try again later or provide a token.".toList)
      else
        Except.error (JsThrown.error ("API error: ".toList ++ Nat.toDigits 10 response.status))
    else
      match response.json with
      | Except.error e => Except.error e
      | Except.ok JsonData.null => Except.error JsThrown.typeError
      | Except.ok (JsonData.value createdAt) => Except.ok createdAt

/-- The `catch` block: a `TypeError` is replaced by the network error, anything else is
thrown again. -/
def catchFetch {α : Type} (r : Except JsThrown α) : Except JsThrown α :=
  match r with
  | Except.ok v => Except.ok v
  | Except.error JsThrown.typeError =>
    Except.error (JsThrown.error "Network error. Please check your connection.".toList)
  | Except.error e => Except.error e

/-- The function `fetchUserCreationDate(username, token)`, given what `fetch` does with a
request: the result is the value the returned promise resolves to, or the value it is
rejected with. -/
def fetchUserCreationDate {α : Type} (fetch : FetchRequest → Except JsThrown (FetchResponse α))
    (username : JsString) (token : Option JsString) : Except JsThrown α :=
  catchFetch (tryFetch (fetch (buildRequest username token)))

/-! # Properties -/

/-! ## Totality -/

theorem splitBy_ne_nil (p : Char → JsString → Bool) (s : JsString) : splitBy p s ≠ [] := by
  cases s with
  | nil => simp [splitBy]
  | cons c rest =>
    unfold splitBy
    split
    · simp
    · cases splitBy p rest <;> simp [consHead]

theorem splitLines_eq_cons (text : JsString) :
    ∃ first rest, splitLines text = first :: rest := by
  have h := splitBy_ne_nil (fun c _ => c == '\n') text
  unfold splitLines
  cases hs : splitBy (fun c _ => c == '\n') text with
  | nil => exact absurd hs h
  | cons a l => exact ⟨a, l, rfl⟩

theorem detectStep_eq (text first : JsString) (rest : List JsString)
    (h : splitLines text = first :: rest) (st : Char × Nat) (delim : Char) :
    detectStep text st delim = Except.ok (sniffStep first st delim) := by
  simp only [detectStep, h, List.getElem?_cons_zero, sniffStep]
  split_ifs <;> rfl

theorem detectDelimiter_eq (text first : JsString) (rest : List JsString)
    (h : splitLines text = first :: rest) :
    detectDelimiter text = Except.ok (pickDelimiter first) := by
  simp only [detectDelimiter, delimiters, List.foldlM, detectStep_eq text first rest h,
    pickDelimiter, List.foldl]
  rfl

theorem activeDelimiter_eq (text first : JsString) (rest : List JsString)
    (h : splitLines (preprocess text) = first :: rest) :
    activeDelimiter text = pickDelimiter first := by
  simp only [activeDelimiter, detectDelimiter_eq _ _ _ h]

theorem detectDelimiter_preprocess (text : JsString) :
    detectDelimiter (preprocess text) = Except.ok (activeDelimiter text) := by
  obtain ⟨first, rest, h⟩ := splitLines_eq_cons (preprocess text)
  rw [activeDelimiter_eq _ _ _ h, detectDelimiter_eq _ _ _ h]

theorem parseCsv_eq (text : JsString) :
    parseCsv text = inferHeader (parseRows (activeDelimiter text) (preprocess text)) := by
  simp only [parseCsv, detectDelimiter_preprocess]

theorem inferHeader_nil : inferHeader [] = Except.ok { headers := some [], rows := [] } := rfl

theorem inferHeader_cons (first : List JsString) (rest : List (List JsString)) :
    inferHeader (first :: rest) =
      Except.ok (if first.all parseFloatIsNaN = true then { headers := some first, rows := rest }
        else { headers := none, rows := first :: rest }) := by
  simp only [inferHeader, List.length_cons, Nat.add_one_ne_zero, if_false,
    List.getElem?_cons_zero, List.drop_succ_cons, List.drop_zero]
  split_ifs <;> rfl

theorem inferHeader_ok (rows : List (List JsString)) :
    ∃ r, inferHeader rows = Except.ok r := by
  cases rows with
  | nil => exact ⟨_, inferHeader_nil⟩
  | cons a l => exact ⟨_, inferHeader_cons a l⟩

theorem parseCsv_congr (t t2 : JsString) (h : preprocess t = preprocess t2) :
    parseCsv t = parseCsv t2 := by
  simp only [parseCsv, h]

/-- C1: `parseCsv` is total.  For every input string the run ends without an exception and
returns a `ParseResult`: neither `text.split('\n')[0].match(..)` nor `firstRow.every(..)`
is ever called on `undefined`. -/
theorem parseCsv_total (text : JsString) : ∃ r : ParseResult, parseCsv text = Except.ok r := by
  rw [parseCsv_eq]
  exact inferHeader_ok _

/-! ## No row at all -/

theorem filter_keepRow_eq_nil (rows : List (List JsString)) (h : ∀ row ∈ rows, row = [[]]) :
    rows.filter keepRow = [] := by
  rw [List.filter_eq_nil_iff]
  intro row hrow
  rw [h row hrow]
  decide

/-- C2: when every LF-separated line of the normalised text yields the single empty field,
`parseCsv` returns `{headers: [], rows: []}`; this is so for the empty string. -/
theorem parseCsv_no_rows (text : JsString)
    (h : ∀ row ∈ splitLines (preprocess text), parseRow (activeDelimiter text) row = [[]]) :
    parseCsv text = Except.ok { headers := some [], rows := [] } ∧
      parseCsv [] = Except.ok { headers := some [], rows := [] } := by
  refine ⟨?_, by decide⟩
  rw [parseCsv_eq, parseRows, filter_keepRow_eq_nil, inferHeader_nil]
  intro row hrow
  obtain ⟨l, hl, rfl⟩ := List.mem_map.mp hrow
  exact h l hl

set_option maxRecDepth 100000 in
theorem parseCsv_no_rows_witness :
    (∀ row ∈ splitLines (preprocess "\n\"\"\r\n\r".toList),
        parseRow (activeDelimiter "\n\"\"\r\n\r".toList) row = [[]]) ∧
      parseCsv "\n\"\"\r\n\r".toList = Except.ok { headers := some [], rows := [] } :=
  ⟨by decide, (parseCsv_no_rows "\n\"\"\r\n\r".toList (by decide)).1⟩

/-! ## The lookahead pattern accepts the strings with an even number of quotes -/

theorem mem_otherStar (y : List QSym) :
    y ∈ (RegularExpression.star (RegularExpression.char QSym.other)).matches' ↔
      QSym.quote ∉ y := by
  rw [RegularExpression.matches'_star, RegularExpression.matches'_char, Language.mem_kstar]
  constructor
  · rintro ⟨L, rfl, hL⟩ hq
    obtain ⟨l, hl, hql⟩ := List.mem_flatten.mp hq
    have := hL l hl
    rw [Set.mem_singleton_iff] at this
    subst this
    simp at hql
  · intro h
    induction y with
    | nil => exact ⟨[], rfl, by simp⟩
    | cons a y ih =>
      have ha : a = QSym.other := by
        cases a
        · exact absurd (List.mem_cons_self _ _) h
        · rfl
      obtain ⟨L, hL, hL2⟩ := ih (fun hq => h (List.mem_cons_of_mem _ hq))
      refine ⟨[QSym.other] :: L, by simp [ha, hL], ?_⟩
      intro z hz
      rcases List.mem_cons.mp hz with hz | hz
      · rw [hz]; rfl
      · exact hL2 z hz

theorem mem_group (g : List QSym) :
    g ∈ (RegularExpression.star (RegularExpression.char QSym.other)
        * RegularExpression.char QSym.quote
        * RegularExpression.star (RegularExpression.char QSym.other)
        * RegularExpression.char QSym.quote).matches' ↔ IsGroup g := by
  simp only [RegularExpression.matches'_mul, Language.mem_mul, mem_otherStar,
    RegularExpression.matches'_char, Set.mem_singleton_iff, IsGroup]
  constructor
  · rintro ⟨u, ⟨w, ⟨a, ha, q1, rfl, rfl⟩, b, hb, rfl⟩, v, rfl, rfl⟩
    exact ⟨a, b, ha, hb, by simp⟩
  · rintro ⟨a, b, ha, hb, rfl⟩
    exact ⟨a ++ [QSym.quote] ++ b, ⟨a ++ [QSym.quote], ⟨a, ha, [QSym.quote], rfl, rfl⟩, b, hb, rfl⟩,
      [QSym.quote], rfl, by simp⟩

theorem mem_lookaheadRe (x : List QSym) : x ∈ lookaheadRe.matches' ↔ IsBalanced x := by
  unfold lookaheadRe
  rw [RegularExpression.matches'_mul, Language.mem_mul]
  constructor
  · rintro ⟨u, hu, n, hn, rfl⟩
    rw [RegularExpression.matches'_star, Language.mem_kstar] at hu
    obtain ⟨L, rfl, hL⟩ := hu
    exact ⟨L, n, fun g hg => (mem_group g).mp (hL g hg), (mem_otherStar n).mp hn, rfl⟩
  · rintro ⟨L, n, hL, hn, rfl⟩
    refine ⟨L.flatten, ?_, n, (mem_otherStar n).mpr hn, rfl⟩
    rw [RegularExpression.matches'_star, Language.mem_kstar]
    exact ⟨L, rfl, fun g hg => (mem_group g).mpr (hL g hg)⟩

theorem count_group (g : List QSym) (h : IsGroup g) : g.count QSym.quote = 2 := by
  obtain ⟨a, b, ha, hb, rfl⟩ := h
  simp [List.count_eq_zero_of_not_mem ha, List.count_eq_zero_of_not_mem hb]

theorem even_of_balanced (x : List QSym) (h : IsBalanced x) : Even (x.count QSym.quote) := by
  obtain ⟨L, n, hL, hn, rfl⟩ := h
  rw [List.count_append, List.count_eq_zero_of_not_mem hn, Nat.add_zero]
  induction L with
  | nil => simp
  | cons g L ih =>
    rw [List.flatten_cons, List.count_append, count_group g (hL g (List.mem_cons_self _ _))]
    exact Even.add (by decide) (ih (fun g hg => hL g (List.mem_cons_of_mem _ hg)))

theorem balanced_cons_other (x : List QSym) (h : IsBalanced x) :
    IsBalanced (QSym.other :: x) := by
  obtain ⟨L, n, hL, hn, rfl⟩ := h
  cases L with
  | nil => exact ⟨[], QSym.other :: n, by simp, by simp [hn], by simp⟩
  | cons g L =>
    obtain ⟨a, b, ha, hb, rfl⟩ := hL g (List.mem_cons_self _ _)
    refine ⟨(QSym.other :: a ++ QSym.quote :: (b ++ [QSym.quote])) :: L, n, ?_, hn, by simp⟩
    intro g hg
    rcases List.mem_cons.mp hg with hg | hg
    · exact ⟨QSym.other :: a, b, by simp [ha], hb, by simp [hg]⟩
    · exact hL g (List.mem_cons_of_mem _ hg)

theorem balanced_cons_quote (x : List QSym) (h : IsOpen x) :
    IsBalanced (QSym.quote :: x) := by
  obtain ⟨b, e, hb, ⟨L, n, hL, hn, rfl⟩, rfl⟩ := h
  refine ⟨([] ++ QSym.quote :: (b ++ [QSym.quote])) :: L, n, ?_, hn, by simp⟩
  intro g hg
  rcases List.mem_cons.mp hg with hg | hg
  · exact ⟨[], b, by simp, hb, by simp [hg]⟩
  · exact hL g hg

theorem balanced_or_open (x : List QSym) :
    (Even (x.count QSym.quote) → IsBalanced x) ∧ (¬ Even (x.count QSym.quote) → IsOpen x) := by
  induction x with
  | nil =>
    exact ⟨fun _ => ⟨[], [], by simp, by simp, rfl⟩, fun h => absurd (by simp) h⟩
  | cons s x ih =>
    cases s with
    | quote =>
      rw [List.count_cons_self, Nat.even_add_one]
      constructor
      · intro h
        exact balanced_cons_quote x (ih.2 h)
      · intro h
        exact ⟨[], x, by simp, ih.1 (not_not.mp h), rfl⟩
    | other =>
      rw [List.count_cons_of_ne (by decide)]
      constructor
      · intro h
        exact balanced_cons_other x (ih.1 h)
      · intro h
        obtain ⟨b, e, hb, he, rfl⟩ := ih.2 h
        exact ⟨QSym.other :: b, e, by simp [hb], he, rfl⟩

theorem count_classify (rest : JsString) :
    (rest.map classify).count QSym.quote = rest.count '"' := by
  induction rest with
  | nil => rfl
  | cons c rest ih =>
    by_cases hc : c = '"'
    · simp [classify, hc, ih]
    · have h1 : classify c ≠ QSym.quote := by simp [classify, hc]
      rw [List.map_cons, List.count_cons_of_ne (Ne.symm h1), ih,
        List.count_cons_of_ne (Ne.symm hc)]

/-- The lookahead succeeds exactly when an even number of quotes follows. -/
theorem lookahead_iff (rest : JsString) : lookahead rest = true ↔ Even (rest.count '"') := by
  unfold lookahead
  rw [RegularExpression.rmatch_iff_matches', mem_lookaheadRe, ← count_classify]
  exact ⟨even_of_balanced _, (balanced_or_open _).1⟩

/-! ## Line endings -/

theorem two_step_induction {P : JsString → Prop} (h0 : P []) (h1 : ∀ c, P [c])
    (h2 : ∀ c c2 rest, P rest → P (c2 :: rest) → P (c :: c2 :: rest)) : ∀ s, P s := by
  have key : ∀ s, P s ∧ ∀ c, P (c :: s) := by
    intro s
    induction s with
    | nil => exact ⟨h0, h1⟩
    | cons c2 rest ih => exact ⟨ih.2 c2, fun c => h2 c c2 rest ih.1 (ih.2 c2)⟩
  exact fun s => (key s).1

theorem normalizeLineEndings_eq (t : JsString) : normalizeLineEndings t = canonicalLF t := by
  unfold normalizeLineEndings
  induction t using two_step_induction with
  | h0 => rfl
  | h1 c => by_cases hc : c = '\r' <;> simp [replacePair, replaceChar, canonicalLF, hc]
  | h2 c c2 rest ih1 ih2 =>
    by_cases h1 : c = '\r'
    · by_cases h2 : c2 = '\n'
      · subst h1 h2
        simpa [replacePair, replaceChar, canonicalLF] using ih1
      · rw [replacePair, if_neg (by simp [h2]), canonicalLF, if_pos h1, if_neg h2, ← ih2]
        simp [replaceChar, h1]
    · rw [replacePair, if_neg (by simp [h1]), canonicalLF, if_neg h1, ← ih2]
      simp [replaceChar, h1]

theorem canonicalLF_cons_of_ne (c : Char) (s : JsString) (hc : c ≠ '\r') :
    canonicalLF (c :: s) = c :: canonicalLF s := by
  cases s with
  | nil => simp [canonicalLF, hc]
  | cons c2 rest => simp [canonicalLF, hc]

theorem canonicalLF_of_not_mem (u : JsString) (hu : '\r' ∉ u) : canonicalLF u = u := by
  induction u with
  | nil => rfl
  | cons c u ih =>
    rw [canonicalLF_cons_of_ne c u (fun h => hu (h ▸ List.mem_cons_self _ _)),
      ih (fun h => hu (List.mem_cons_of_mem _ h))]

theorem cr_not_mem_canonicalLF (t : JsString) : '\r' ∉ canonicalLF t := by
  induction t using two_step_induction with
  | h0 => simp [canonicalLF]
  | h1 c =>
    by_cases hc : c = '\r'
    · simp [canonicalLF, hc]
    · simp [canonicalLF, hc, Ne.symm hc]
  | h2 c c2 rest ih1 ih2 =>
    by_cases h1 : c = '\r'
    · by_cases h2 : c2 = '\n'
      · rw [canonicalLF, if_pos h1, if_pos h2]
        simpa using ih1
      · rw [canonicalLF, if_pos h1, if_neg h2]
        simpa using ih2
    · rw [canonicalLF, if_neg h1]
      simpa [Ne.symm h1] using ih2

theorem canonicalLF_lfToCrlf (u : JsString) (hu : '\r' ∉ u) : canonicalLF (lfToCrlf u) = u := by
  induction u with
  | nil => rfl
  | cons c u ih =>
    have ih2 := ih (fun h => hu (List.mem_cons_of_mem _ h))
    have hc : c ≠ '\r' := fun h => hu (h ▸ List.mem_cons_self _ _)
    by_cases hn : c = '\n'
    · subst hn
      have : lfToCrlf ('\n' :: u) = '\r' :: '\n' :: lfToCrlf u := by
        simp [lfToCrlf, List.flatMap_cons]
      rw [this, canonicalLF, if_pos rfl, if_pos rfl, ih2]
    · have : lfToCrlf (c :: u) = c :: lfToCrlf u := by
        simp [lfToCrlf, List.flatMap_cons, hn]
      rw [this, canonicalLF_cons_of_ne c _ hc, ih2]

theorem lf_not_mem_lfToCr (u : JsString) : '\n' ∉ lfToCr u := by
  intro h
  obtain ⟨c, _, hc⟩ := List.mem_map.mp h
  by_cases hn : c = '\n'
  · rw [if_pos hn] at hc
    exact absurd hc (by decide)
  · rw [if_neg hn] at hc
    exact hn hc

theorem canonicalLF_cr_cons (s : JsString) (hs : '\n' ∉ s) :
    canonicalLF ('\r' :: s) = '\n' :: canonicalLF s := by
  cases s with
  | nil => simp [canonicalLF]
  | cons c2 rest =>
    have h2 : c2 ≠ '\n' := fun h => hs (h ▸ List.mem_cons_self _ _)
    rw [canonicalLF, if_pos rfl, if_neg h2]

theorem canonicalLF_lfToCr (u : JsString) (hu : '\r' ∉ u) : canonicalLF (lfToCr u) = u := by
  induction u with
  | nil => rfl
  | cons c u ih =>
    have ih2 := ih (fun h => hu (List.mem_cons_of_mem _ h))
    have hc : c ≠ '\r' := fun h => hu (h ▸ List.mem_cons_self _ _)
    by_cases hn : c = '\n'
    · subst hn
      have : lfToCr ('\n' :: u) = '\r' :: lfToCr u := by simp [lfToCr]
      rw [this, canonicalLF_cr_cons _ (lf_not_mem_lfToCr u), ih2]
    · have : lfToCr (c :: u) = c :: lfToCr u := by simp [lfToCr, hn]
      rw [this, canonicalLF_cons_of_ne c _ hc, ih2]

theorem preprocess_canonicalLF (t : JsString) : preprocess (canonicalLF t) = preprocess t := by
  unfold preprocess
  rw [normalizeLineEndings_eq, normalizeLineEndings_eq,
    canonicalLF_of_not_mem _ (cr_not_mem_canonicalLF t)]

/-- C3: line-ending invariance.  `parseCsv t` equals `parseCsv` of `t` with every CRLF and
every lone CR replaced by one LF; so for a text `u` without CR, replacing each LF by CRLF,
or each LF by a lone CR, leaves the result unchanged. -/
theorem parseCsv_line_endings (t u : JsString) (hu : '\r' ∉ u) :
    parseCsv t = parseCsv (canonicalLF t) ∧
      parseCsv (lfToCrlf u) = parseCsv u ∧ parseCsv (lfToCr u) = parseCsv u := by
  refine ⟨parseCsv_congr _ _ (preprocess_canonicalLF t).symm, ?_, ?_⟩
  · apply parseCsv_congr
    rw [← preprocess_canonicalLF, canonicalLF_lfToCrlf u hu]
  · apply parseCsv_congr
    rw [← preprocess_canonicalLF, canonicalLF_lfToCr u hu]

set_option maxRecDepth 100000 in
theorem parseCsv_line_endings_witness :
    '\r' ∉ "a,b\n1,2\n".toList ∧
      canonicalLF "a,b\r1,2\r\n".toList = "a,b\n1,2\n".toList ∧
      lfToCrlf "a,b\n1,2\n".toList = "a,b\r\n1,2\r\n".toList ∧
      lfToCr "a,b\n1,2\n".toList = "a,b\r1,2\r".toList ∧
      parseCsv "a,b\r1,2\r\n".toList = parseCsv (canonicalLF "a,b\r1,2\r\n".toList) ∧
      parseCsv (lfToCrlf "a,b\n1,2\n".toList) = parseCsv "a,b\n1,2\n".toList ∧
      parseCsv (lfToCr "a,b\n1,2\n".toList) = parseCsv "a,b\n1,2\n".toList :=
  ⟨by decide, by decide, by decide, by decide,
    parseCsv_line_endings "a,b\r1,2\r\n".toList "a,b\n1,2\n".toList (by decide)⟩

/-! ## Delimiter sniffing -/

theorem pickDelimiter_cases (first : JsString) :
    (pickDelimiter first = ',' ∧ countMatches ';' first ≤ countMatches ',' first ∧
        countMatches '\t' first ≤ countMatches ',' first) ∨
      (pickDelimiter first = ';' ∧ countMatches ',' first < countMatches ';' first ∧
        countMatches '\t' first ≤ countMatches ';' first) ∨
      (pickDelimiter first = '\t' ∧ countMatches ',' first < countMatches '\t' first ∧
        countMatches ';' first < countMatches '\t' first) := by
  simp only [pickDelimiter, delimiters, List.foldl, sniffStep]
  split_ifs <;> simp_all <;> omega

theorem pickDelimiter_spec (first : JsString) :
    ∃ i : Nat, delimiters[i]? = some (pickDelimiter first) ∧
      ∀ (j : Nat) (c : Char), delimiters[j]? = some c →
        (j < i → countMatches c first < countMatches (pickDelimiter first) first) ∧
        (i < j → countMatches c first ≤ countMatches (pickDelimiter first) first) := by
  rcases pickDelimiter_cases first with ⟨h, h1, h2⟩ | ⟨h, h1, h2⟩ | ⟨h, h1, h2⟩
  · refine ⟨0, by rw [h]; rfl, ?_⟩
    intro j c hj
    rw [h]
    rcases j with _ | _ | _ | j <;> simp [delimiters] at hj <;> subst hj <;>
      constructor <;> intro _ <;> omega
  · refine ⟨1, by rw [h]; rfl, ?_⟩
    intro j c hj
    rw [h]
    rcases j with _ | _ | _ | j <;> simp [delimiters] at hj <;> subst hj <;>
      constructor <;> intro _ <;> omega
  · refine ⟨2, by rw [h]; rfl, ?_⟩
    intro j c hj
    rw [h]
    rcases j with _ | _ | _ | j <;> simp [delimiters] at hj <;> subst hj <;>
      constructor <;> intro _ <;> omega

/-- C4: delimiter sniffing.  The delimiter is computed from the first line of the
normalised, BOM-stripped text alone and is used to split every line.  It is the candidate
of `[',', ';', '\t']` at an index `i` such that every candidate at a smaller index has a
strictly smaller count in the first line and every candidate at a larger index a count
that is not larger; when all three counts are zero it is the comma. -/
theorem delimiter_sniffing (text : JsString) :
    ∃ first rest,
      splitLines (preprocess text) = first :: rest ∧
      detectDelimiter (preprocess text) = Except.ok (pickDelimiter first) ∧
      parseCsv text =
        inferHeader (((first :: rest).map (parseRow (pickDelimiter first))).filter keepRow) ∧
      (∃ i : Nat, delimiters[i]? = some (pickDelimiter first) ∧
        ∀ (j : Nat) (c : Char), delimiters[j]? = some c →
          (j < i → countMatches c first < countMatches (pickDelimiter first) first) ∧
          (i < j → countMatches c first ≤ countMatches (pickDelimiter first) first)) ∧
      (countMatches ',' first = 0 → countMatches ';' first = 0 →
        countMatches '\t' first = 0 → pickDelimiter first = ',') := by
  obtain ⟨first, rest, h⟩ := splitLines_eq_cons (preprocess text)
  refine ⟨first, rest, h, detectDelimiter_eq _ _ _ h, ?_, pickDelimiter_spec first, ?_⟩
  · rw [parseCsv_eq, activeDelimiter_eq _ _ _ h, parseRows, h]
  · intro h1 h2 h3
    rcases pickDelimiter_cases first with ⟨h, _, _⟩ | ⟨_, h, _⟩ | ⟨_, h, _⟩
    · exact h
    · omega
    · omega

/-! ## Row splitting -/

theorem isCut_succ (d c : Char) (rest : JsString) (i : Nat) :
    isCut d (c :: rest) (i + 1) = isCut d rest i := by
  simp [isCut]

theorem cutPoints_cons (d c : Char) (rest : JsString) :
    cutPoints d (c :: rest) =
      (if isCut d (c :: rest) 0 then [0] else []) ++ (cutPoints d rest).map (· + 1) := by
  simp only [cutPoints, List.length_cons, List.range_succ_eq_map, List.filter_cons,
    List.filter_map]
  have : (isCut d (c :: rest) ∘ Nat.succ) = isCut d rest := by
    funext i
    exact isCut_succ d c rest i
  rw [this]
  split_ifs <;> rfl

theorem piecesFrom_cons_succ (c : Char) (rest : JsString) (cuts : List Nat) (start : Nat) :
    piecesFrom (c :: rest) (start + 1) (cuts.map (· + 1)) = piecesFrom rest start cuts := by
  induction cuts generalizing start with
  | nil => simp [piecesFrom]
  | cons i cuts ih => simp [piecesFrom, ih]

theorem piecesFrom_cons_zero (c : Char) (rest : JsString) (cuts : List Nat) :
    piecesFrom (c :: rest) 0 (cuts.map (· + 1)) = consHead c (piecesFrom rest 0 cuts) := by
  cases cuts with
  | nil => simp [piecesFrom, consHead]
  | cons i cuts => simp [piecesFrom, consHead, piecesFrom_cons_succ]

theorem isCut_zero (d c : Char) (rest : JsString) :
    isCut d (c :: rest) 0 = (c == d && lookahead rest) := by
  have h := lookahead_iff rest
  rw [Nat.even_iff] at h
  by_cases hl : lookahead rest = true
  · simp [isCut, hl, h.mp hl]
  · have h2 : ¬ rest.count '"' % 2 = 0 := fun h3 => hl (h.mpr h3)
    simp [isCut, hl, h2]

theorem splitRow_eq_pieces (d : Char) (row : JsString) :
    splitRow d row = piecesFrom row 0 (cutPoints d row) := by
  induction row with
  | nil => rfl
  | cons c rest ih =>
    rw [cutPoints_cons, isCut_zero]
    unfold splitRow at ih ⊢
    rw [splitBy]
    by_cases h : (c == d && lookahead rest) = true
    · rw [if_pos h, if_pos h, ih]
      simp [piecesFrom, piecesFrom_cons_succ]
    · rw [if_neg h, if_neg h, ih, List.nil_append, piecesFrom_cons_zero]

theorem intercalate_splitBy (d : Char) (p : Char → JsString → Bool)
    (hp : ∀ c rest, p c rest = true → c = d) (s : JsString) :
    List.intercalate [d] (splitBy p s) = s := by
  induction s with
  | nil => rfl
  | cons c rest ih =>
    rw [splitBy]
    obtain ⟨f, fs, hfs⟩ : ∃ f fs, splitBy p rest = f :: fs := by
      cases h : splitBy p rest with
      | nil => exact absurd h (splitBy_ne_nil p rest)
      | cons f fs => exact ⟨f, fs, rfl⟩
    rw [hfs] at ih ⊢
    by_cases h : p c rest = true
    · rw [if_pos h]
      have hcd := hp c rest h
      subst hcd
      simp only [List.intercalate, List.intersperse, List.flatten_cons, List.nil_append,
        List.singleton_append] at ih ⊢
      rw [ih]
    · rw [if_neg h, consHead]
      cases fs with
      | nil =>
        simp only [List.intercalate, List.intersperse, List.flatten_cons, List.flatten_nil,
          List.append_nil] at ih ⊢
        rw [ih]
      | cons g gs =>
        simp only [List.intercalate, List.intersperse, List.flatten_cons,
          List.cons_append] at ih ⊢
        rw [ih]

theorem intercalate_splitRow (d : Char) (row : JsString) :
    List.intercalate [d] (splitRow d row) = row :=
  intercalate_splitBy d _
    (fun c rest h => by
      rw [Bool.and_eq_true, beq_iff_eq] at h
      exact h.1) row

/-- C5: row splitting.  A line is cut at exactly the occurrences of the delimiter that are
followed, up to the end of the line, by an even number of double quotes: the raw fields are
the pieces between consecutive cut points, in order, and joining them with the delimiter
gives the line back. -/
theorem row_splitting (d : Char) (row : JsString) :
    splitRow d row = piecesFrom row 0 (cutPoints d row) ∧
      (∀ i : Nat, i ∈ cutPoints d row ↔
        row[i]? = some d ∧ Even ((row.drop (i + 1)).count '"')) ∧
      List.intercalate [d] (splitRow d row) = row := by
  refine ⟨splitRow_eq_pieces d row, ?_, intercalate_splitRow d row⟩
  intro i
  simp only [cutPoints, List.mem_filter, List.mem_range, isCut, Bool.and_eq_true, beq_iff_eq,
    Nat.even_iff]
  constructor
  · exact fun h => h.2
  · intro h
    refine ⟨?_, h⟩
    by_contra hlt
    rw [List.getElem?_eq_none (by omega)] at h
    exact absurd h.1 (by simp)

/-! ## Field unquoting -/

theorem substring_one_pred (field : JsString) (h : 2 ≤ field.length) :
    substring field 1 (field.length - 1) = (field.drop 1).dropLast := by
  unfold substring
  have h1 : min 1 field.length = 1 := by omega
  have h2 : min (field.length - 1) field.length = field.length - 1 := by omega
  have h3 : max 1 (field.length - 1) = field.length - 1 := by omega
  have h4 : min 1 (field.length - 1) = 1 := by omega
  simp only [h1, h2, h3, h4]
  rw [List.dropLast_eq_take, List.length_drop, List.drop_take]

/-- C7, amended: a raw field of at least two characters that begins and ends with a double
quote is returned without its first and its last character and with every doubled quote of
the remainder replaced by one quote; a raw field that does not both begin and end with a
double quote is returned verbatim. -/
theorem unquoteField_spec (field : JsString) :
    (field.head? = some '"' ∧ field.getLast? = some '"' ∧ 2 ≤ field.length →
        unquoteField field = replacePair '"' '"' '"' (field.drop 1).dropLast) ∧
      (¬ (field.head? = some '"' ∧ field.getLast? = some '"') →
        unquoteField field = field) := by
  constructor
  · rintro ⟨h1, h2, h3⟩
    rw [unquoteField, if_pos ⟨h1, h2⟩, substring_one_pred field h3]
  · intro h
    rw [unquoteField, if_neg h]

theorem unquoteField_spec_witness :
    unquoteField "\"she said \"\"hi\"\"\"".toList = "she said \"hi\"".toList ∧
      unquoteField " \"a\" ".toList = " \"a\" ".toList :=
  ⟨((unquoteField_spec "\"she said \"\"hi\"\"\"".toList).1 (by decide)).trans (by decide),
    (unquoteField_spec " \"a\" ".toList).2 (by decide)⟩

/-- C7 as stated fails on the raw field `"`, which splitting the line `"` produces: it
begins and ends with a double quote, and `substring(1, 0)` swaps its arguments, so the
field comes back unchanged instead of with its quote removed. -/
theorem unquoteField_lone_quote :
    "\"".toList ∈ splitRow ',' "\"".toList ∧
      ("\"".toList.head? = some '"' ∧ "\"".toList.getLast? = some '"') ∧
      unquoteField "\"".toList = "\"".toList ∧
      unquoteField "\"".toList ≠ unquoteFieldSpec "\"".toList := by
  decide

/-! ## Empty rows -/

theorem keepRow_eq (row : List JsString) : keepRow row = decide (row ≠ [[]]) := by
  rcases row with _ | ⟨f, _ | ⟨g, gs⟩⟩
  · rfl
  · cases f <;> simp [keepRow]
  · simp [keepRow]

theorem parseRow_ne_nil (d : Char) (row : JsString) : parseRow d row ≠ [] := by
  unfold parseRow splitRow
  intro h
  exact splitBy_ne_nil _ _ (List.map_eq_nil_iff.mp h)

theorem keptRows_inferHeader (rows : List (List JsString)) (r : ParseResult)
    (hne : ∀ row ∈ rows, row ≠ []) (h : inferHeader rows = Except.ok r) :
    keptRows r = rows := by
  cases rows with
  | nil =>
    rw [inferHeader_nil] at h
    cases h
    rfl
  | cons first rest =>
    rw [inferHeader_cons] at h
    have hr := Except.ok.inj h
    obtain ⟨c, cs, hc⟩ : ∃ c cs, first = c :: cs := by
      cases first with
      | nil => exact absurd rfl (hne [] (List.mem_cons_self _ _))
      | cons c cs => exact ⟨c, cs, rfl⟩
    subst hc
    split_ifs at hr <;> subst hr <;> rfl

theorem parseRow_ne_single_empty (d : Char) (row : JsString) (hne : row ≠ [])
    (hq : row.head? ≠ some '"') : parseRow d row ≠ [[]] := by
  intro h
  unfold parseRow at h
  obtain ⟨f, hf⟩ : ∃ f, splitRow d row = [f] := by
    rcases hs : splitRow d row with _ | ⟨f, _ | ⟨g, gs⟩⟩
    · rw [hs] at h; simp at h
    · exact ⟨f, rfl⟩
    · rw [hs] at h; simp at h
  have hj := intercalate_splitRow d row
  rw [hf] at hj h
  have hfr : f = row := by simpa [List.intercalate] using hj
  subst hfr
  simp only [List.map_cons, List.map_nil, List.cons.injEq, and_true] at h
  rw [unquoteField, if_neg (fun hh => hq hh.1)] at h
  exact hne h

/-- C8: empty-row filtering and order.  With `R` the unquoted field lists of the
LF-separated lines of the normalised text, in order, the rows `parseCsv` keeps (the header
row when one is inferred, then `rows`) are the elements of `R` other than the one-field row
`[""]`, in their order: a row is dropped exactly when it is the single empty field, a row of
two or more fields is kept, and a non-empty line of white space only is kept. -/
theorem empty_row_filtering (text : JsString) :
    ∃ r : ParseResult, parseCsv text = Except.ok r ∧
      keptRows r = ((splitLines (preprocess text)).map
        (parseRow (activeDelimiter text))).filter (fun row => decide (row ≠ [[]])) ∧
      (∀ row ∈ (splitLines (preprocess text)).map (parseRow (activeDelimiter text)),
        (row ∈ keptRows r ↔ row ≠ [[]]) ∧ (2 ≤ row.length → row ∈ keptRows r)) ∧
      (∀ ln ∈ splitLines (preprocess text), ln ≠ [] →
        (∀ c ∈ ln, isStrWhiteSpaceChar c = true) →
        parseRow (activeDelimiter text) ln ∈ keptRows r) := by
  obtain ⟨r, hr⟩ : ∃ r, parseCsv text = Except.ok r := by
    rw [parseCsv_eq]
    exact inferHeader_ok _
  have hk : keptRows r = ((splitLines (preprocess text)).map
      (parseRow (activeDelimiter text))).filter (fun row => decide (row ≠ [[]])) := by
    rw [parseCsv_eq, parseRows] at hr
    rw [keptRows_inferHeader _ r ?_ hr]
    · congr 1
      funext row
      exact keepRow_eq row
    · intro row hrow
      obtain ⟨l, _, rfl⟩ := List.mem_map.mp (List.mem_of_mem_filter hrow)
      exact parseRow_ne_nil _ l
  refine ⟨r, hr, hk, ?_, ?_⟩
  · intro row hrow
    rw [hk, List.mem_filter]
    refine ⟨⟨fun h => of_decide_eq_true h.2, fun h => ⟨hrow, decide_eq_true h⟩⟩, ?_⟩
    intro h2
    refine ⟨hrow, decide_eq_true ?_⟩
    intro h
    rw [h] at h2
    simp at h2
  · intro ln hln hne hws
    rw [hk, List.mem_filter]
    refine ⟨List.mem_map_of_mem _ hln, decide_eq_true ?_⟩
    apply parseRow_ne_single_empty _ _ hne
    intro hq
    cases ln with
    | nil => exact hne rfl
    | cons c rest =>
      simp only [List.head?_cons, Option.some.injEq] at hq
      have := hws c (List.mem_cons_self _ _)
      rw [hq] at this
      exact absurd this (by decide)

/-! ## Header inference -/

/-- C9: header inference.  When `first` is the first row that survives the empty-row
filter and `rest` are the later ones, `parseCsv` returns `first` as `headers` and `rest` as
`rows` if and only if every cell of `first` fails the numeric parse of its start; otherwise,
when some cell has a numeric start, it returns `headers = null` and all surviving rows. -/
theorem header_inference (text : JsString) (first : List JsString)
    (rest : List (List JsString))
    (h : parseRows (activeDelimiter text) (preprocess text) = first :: rest) :
    (parseCsv text = Except.ok { headers := some first, rows := rest } ↔
        ∀ cell ∈ first, parseFloatIsNaN cell = true) ∧
      ((∃ cell ∈ first, parseFloatIsNaN cell = false) →
        parseCsv text = Except.ok { headers := none, rows := first :: rest }) := by
  rw [parseCsv_eq, h, inferHeader_cons]
  by_cases hall : first.all parseFloatIsNaN = true
  · rw [if_pos hall]
    rw [List.all_eq_true] at hall
    refine ⟨⟨fun _ => hall, fun _ => rfl⟩, ?_⟩
    rintro ⟨cell, hc, hn⟩
    rw [hall cell hc] at hn
    exact absurd hn (by decide)
  · rw [if_neg hall]
    refine ⟨⟨fun hh => ?_, fun hh => absurd (List.all_eq_true.mpr hh) hall⟩, fun _ => rfl⟩
    have := Except.ok.inj hh
    simp at this

set_option maxRecDepth 100000 in
theorem header_inference_witness :
    parseRows (activeDelimiter "a,b\n1,2\n".toList) (preprocess "a,b\n1,2\n".toList) =
        ["a".toList, "b".toList] :: [["1".toList, "2".toList]] ∧
      (parseCsv "a,b\n1,2\n".toList =
        Except.ok { headers := some ["a".toList, "b".toList],
                    rows := [["1".toList, "2".toList]] }) ∧
      (parseCsv "1,2\n3,4\n".toList =
        Except.ok { headers := none,
                    rows := [["1".toList, "2".toList], ["3".toList, "4".toList]] }) ∧
      (parseCsv "1x,2y\nc,d".toList =
        Except.ok { headers := none,
                    rows := [["1x".toList, "2y".toList], ["c".toList, "d".toList]] }) :=
  ⟨by decide,
    (header_inference "a,b\n1,2\n".toList ["a".toList, "b".toList] [["1".toList, "2".toList]]
      (by decide)).1.mpr (by decide),
    (header_inference "1,2\n3,4\n".toList ["1".toList, "2".toList] [["3".toList, "4".toList]]
      (by decide)).2 ⟨"1".toList, by decide, by decide⟩,
    (header_inference "1x,2y\nc,d".toList ["1x".toList, "2y".toList] [["c".toList, "d".toList]]
      (by decide)).2 ⟨"1x".toList, by decide, by decide⟩⟩

/-! ## Byte-order mark -/

theorem head?_canonicalLF_ne_bom (t : JsString) (h : t.head? ≠ some bom) :
    (canonicalLF t).head? ≠ some bom := by
  rcases t with _ | ⟨c, _ | ⟨c2, rest⟩⟩
  · simp [canonicalLF]
  · by_cases hc : c = '\r'
    · simp only [canonicalLF, hc, if_true]
      decide
    · simpa [canonicalLF, hc] using h
  · by_cases hc : c = '\r'
    · by_cases h2 : c2 = '\n'
      · simp only [canonicalLF, hc, h2, if_true, List.head?_cons]
        decide
      · simp only [canonicalLF, hc, h2, if_true, if_false, List.head?_cons]
        decide
    · simpa [canonicalLF, hc] using h

theorem stripBom_of_ne (s : JsString) (h : s.head? ≠ some bom) : stripBom s = s := by
  unfold stripBom
  rw [if_neg]
  intro hh
  apply h
  cases s with
  | nil => simp at hh
  | cons c rest =>
    simp only [List.head?_cons, Option.map_some', Option.some.injEq] at hh ⊢
    rw [← Char.ofNat_toNat c, hh]
    rfl

/-- C10: BOM stripping.  For a text `t` that does not begin with U+FEFF, the text that is
sniffed and split is the same for U+FEFF followed by `t` as for `t`, so `parseCsv` returns
the same result: the mark is dropped before delimiter sniffing and is in no field. -/
theorem bom_stripping (t : JsString) (h : t.head? ≠ some bom) :
    preprocess (bom :: t) = preprocess t ∧ parseCsv (bom :: t) = parseCsv t := by
  have hp : preprocess (bom :: t) = preprocess t := by
    unfold preprocess
    rw [normalizeLineEndings_eq, normalizeLineEndings_eq,
      canonicalLF_cons_of_ne bom t (by decide),
      stripBom_of_ne _ (head?_canonicalLF_ne_bom t h)]
    rfl
  exact ⟨hp, parseCsv_congr _ _ hp⟩

set_option maxRecDepth 100000 in
theorem bom_stripping_witness :
    "a;b\n1;2".toList.head? ≠ some bom ∧
      parseCsv (bom :: "a;b\n1;2".toList) = parseCsv "a;b\n1;2".toList ∧
      parseCsv "a;b\n1;2".toList =
        Except.ok { headers := some ["a".toList, "b".toList],
                    rows := [["1".toList, "2".toList]] } :=
  ⟨by decide, (bom_stripping "a;b\n1;2".toList (by decide)).2, by decide⟩

/-! ## Quoted-field round trip -/

theorem intercalate_cons_cons (sep a b : JsString) (l : List JsString) :
    List.intercalate sep (a :: b :: l) = a ++ sep ++ List.intercalate sep (b :: l) := by
  simp [List.intercalate, List.intersperse]

theorem intercalate_singleton (sep a : JsString) : List.intercalate sep [a] = a := by
  simp [List.intercalate, List.intersperse]

theorem not_mem_intercalate (x : Char) (sep : JsString) (ls : List JsString)
    (hsep : x ∉ sep) (hls : ∀ l ∈ ls, x ∉ l) : x ∉ List.intercalate sep ls := by
  induction ls with
  | nil => simp [List.intercalate]
  | cons a ls ih =>
    cases ls with
    | nil =>
      rw [intercalate_singleton]
      exact hls a (List.mem_cons_self _ _)
    | cons b l =>
      rw [intercalate_cons_cons]
      simp only [List.mem_append, not_or]
      exact ⟨⟨hls a (List.mem_cons_self _ _), hsep⟩,
        ih (fun l hl => hls l (List.mem_cons_of_mem _ hl))⟩

theorem splitBy_append_sep (p : Char → JsString → Bool) (d : Char) (tail : JsString)
    (hd : p d tail = true) (s : JsString)
    (hs : ∀ c b, (c :: b) <:+ s → p c (b ++ d :: tail) = false) :
    splitBy p (s ++ d :: tail) = s :: splitBy p tail := by
  induction s with
  | nil => simp [splitBy, hd]
  | cons c s ih =>
    have h1 : p c (s ++ d :: tail) = false := hs c s (List.suffix_refl _)
    have h2 := ih (fun c2 b hb => hs c2 b (List.suffix_cons_iff.mpr (Or.inr hb)))
    rw [List.cons_append, splitBy, h1, h2]
    rfl

theorem splitBy_last (p : Char → JsString → Bool) (s : JsString)
    (hs : ∀ c b, (c :: b) <:+ s → p c b = false) : splitBy p s = [s] := by
  induction s with
  | nil => rfl
  | cons c s ih =>
    have h1 : p c s = false := hs c s (List.suffix_refl _)
    have h2 := ih (fun c2 b hb => hs c2 b (List.suffix_cons_iff.mpr (Or.inr hb)))
    rw [splitBy, h1, h2]
    rfl

theorem splitLines_intercalate (ls : List JsString) (hne : ls ≠ [])
    (hls : ∀ l ∈ ls, '\n' ∉ l) : splitLines (List.intercalate ['\n'] ls) = ls := by
  unfold splitLines
  induction ls with
  | nil => exact absurd rfl hne
  | cons a ls ih =>
    have ha : ∀ c b, (c :: b) <:+ a → (c == '\n') = false := by
      intro c b hb
      rw [beq_eq_false_iff_ne]
      intro hc
      exact hls a (List.mem_cons_self _ _) (hc ▸ hb.subset (List.mem_cons_self _ _))
    cases ls with
    | nil =>
      rw [intercalate_singleton]
      exact splitBy_last _ a (fun c b hb => ha c b hb)
    | cons b l =>
      rw [intercalate_cons_cons, List.append_assoc, List.singleton_append,
        splitBy_append_sep _ '\n' _ (by simp) a (fun c b hb => ha c b hb),
        ih (by simp) (fun l hl => hls l (List.mem_cons_of_mem _ hl))]

theorem lookahead_eq_false (rest : JsString) (h : ¬ Even (rest.count '"')) :
    lookahead rest = false := by
  rw [← Bool.not_eq_true, lookahead_iff]
  exact h

theorem even_count_intercalate (ss : List JsString)
    (hss : ∀ s ∈ ss, Even (s.count '"')) : Even ((List.intercalate [','] ss).count '"') := by
  induction ss with
  | nil => simp [List.intercalate]
  | cons a ss ih =>
    cases ss with
    | nil =>
      rw [intercalate_singleton]
      exact hss a (List.mem_cons_self _ _)
    | cons b l =>
      rw [intercalate_cons_cons, List.count_append, List.count_append]
      have h0 : List.count '"' [','] = 0 := by decide
      rw [h0, Nat.add_zero]
      exact Even.add (hss a (List.mem_cons_self _ _))
        (ih (fun s hs => hss s (List.mem_cons_of_mem _ hs)))

theorem splitRow_intercalate (ss : List JsString) (hne : ss ≠ [])
    (heven : ∀ s ∈ ss, Even (s.count '"'))
    (hcut : ∀ s ∈ ss, ∀ b, (',' :: b) <:+ s → ¬ Even (b.count '"')) :
    splitRow ',' (List.intercalate [','] ss) = ss := by
  unfold splitRow
  induction ss with
  | nil => exact absurd rfl hne
  | cons a ss ih =>
    cases ss with
    | nil =>
      rw [intercalate_singleton]
      apply splitBy_last
      intro c b hb
      by_cases hc : c = ','
      · subst hc
        rw [lookahead_eq_false b (hcut a (List.mem_cons_self _ _) b hb)]
        rfl
      · simp [hc]
    | cons b l =>
      have htail : Even ((List.intercalate [','] (b :: l)).count '"') :=
        even_count_intercalate _ (fun s hs => heven s (List.mem_cons_of_mem _ hs))
      rw [intercalate_cons_cons, List.append_assoc, List.singleton_append,
        splitBy_append_sep _ ',' _ ?_ a ?_,
        ih (by simp) (fun s hs => heven s (List.mem_cons_of_mem _ hs))
          (fun s hs => hcut s (List.mem_cons_of_mem _ hs))]
      · simp [(lookahead_iff _).mpr htail]
      · intro c b2 hb
        by_cases hc : c = ','
        · subst hc
          rw [lookahead_eq_false]
          · rfl
          · rw [List.count_append, List.count_cons_of_ne (by decide), Nat.even_add]
            intro h
            exact hcut a (List.mem_cons_self _ _) b2 hb (h.mpr htail)
        · simp [hc]

theorem mem_escapeQuotes (x : Char) (f : JsString) (h : x ∈ escapeQuotes f) :
    x = '"' ∨ x ∈ f := by
  unfold escapeQuotes at h
  obtain ⟨c, hc, hx⟩ := List.mem_flatMap.mp h
  by_cases hq : c = '"'
  · rw [if_pos hq] at hx
    left
    simpa using hx
  · rw [if_neg hq] at hx
    right
    rw [List.mem_singleton.mp hx]
    exact hc

theorem escapeQuotes_cons (c : Char) (f : JsString) :
    escapeQuotes (c :: f) =
      if c = '"' then '"' :: '"' :: escapeQuotes f else c :: escapeQuotes f := by
  unfold escapeQuotes
  rw [List.flatMap_cons]
  split_ifs <;> rfl

theorem even_count_escapeQuotes (f : JsString) : Even ((escapeQuotes f).count '"') := by
  induction f with
  | nil => simp [escapeQuotes]
  | cons c f ih =>
    rw [escapeQuotes_cons]
    by_cases hq : c = '"'
    · rw [if_pos hq, List.count_cons_self, List.count_cons_self, Nat.add_assoc]
      exact Even.add ih (by decide)
    · rw [if_neg hq, List.count_cons_of_ne (Ne.symm hq)]
      exact ih

theorem noCut_escapeQuotes (f : JsString) :
    ∀ b, (',' :: b) <:+ (escapeQuotes f ++ ['"']) → ¬ Even (b.count '"') := by
  induction f with
  | nil =>
    intro b hb
    have hb2 : (',' :: b) <:+ ['"'] := hb
    rw [List.suffix_cons_iff] at hb2
    rcases hb2 with hb2 | hb2
    · simp at hb2
    · simp at hb2
  | cons c f ih =>
    intro b hb
    rw [escapeQuotes_cons] at hb
    by_cases hq : c = '"'
    · rw [if_pos hq, List.cons_append, List.cons_append, List.suffix_cons_iff,
        List.suffix_cons_iff] at hb
      rcases hb with hb | hb | hb
      · simp at hb
      · simp at hb
      · exact ih b hb
    · rw [if_neg hq, List.cons_append, List.suffix_cons_iff] at hb
      rcases hb with hb | hb
      · rw [(List.cons.inj hb).2, List.count_append, Nat.even_add]
        intro h
        exact absurd (h.mp (even_count_escapeQuotes f)) (by decide)
      · exact ih b hb

theorem replacePair_cons_of_ne (a b r c : Char) (s : JsString) (hc : c ≠ a) :
    replacePair a b r (c :: s) = c :: replacePair a b r s := by
  cases s with
  | nil => rfl
  | cons c2 rest => rw [replacePair, if_neg (fun h => hc h.1)]

theorem replacePair_escapeQuotes (f : JsString) :
    replacePair '"' '"' '"' (escapeQuotes f) = f := by
  induction f with
  | nil => rfl
  | cons c f ih =>
    rw [escapeQuotes_cons]
    by_cases hq : c = '"'
    · rw [if_pos hq, replacePair, if_pos ⟨rfl, rfl⟩, ih, hq]
    · rw [if_neg hq, replacePair_cons_of_ne _ _ _ _ _ hq, ih]

theorem unquoteField_quoteField (f : JsString) : unquoteField (quoteField f) = f := by
  have h1 : (quoteField f).head? = some '"' := rfl
  have h2 : (quoteField f).getLast? = some '"' := by
    unfold quoteField
    rw [← List.cons_append, List.getLast?_append]
    rfl
  have h3 : 2 ≤ (quoteField f).length := by
    simp [quoteField]
  rw [unquoteField, if_pos ⟨h1, h2⟩, substring_one_pred _ h3]
  have : ((quoteField f).drop 1).dropLast = escapeQuotes f := by
    simp [quoteField]
  rw [this, replacePair_escapeQuotes]

theorem unquoteField_serialiseField (qf : Bool × JsString) (h : qf.1 = false → '"' ∉ qf.2) :
    unquoteField (serialiseField qf) = qf.2 := by
  obtain ⟨q, f⟩ := qf
  cases q with
  | true => exact unquoteField_quoteField f
  | false =>
    have hf : '"' ∉ f := h rfl
    show unquoteField f = f
    rw [unquoteField, if_neg]
    rintro ⟨h1, _⟩
    cases f with
    | nil => simp at h1
    | cons c f =>
      simp only [List.head?_cons, Option.some.injEq] at h1
      exact hf (h1 ▸ List.mem_cons_self _ _)

theorem not_mem_serialiseField (x : Char) (qf : Bool × JsString) (hx : x ≠ '"')
    (hf : x ∉ qf.2) : x ∉ serialiseField qf := by
  obtain ⟨q, f⟩ := qf
  cases q with
  | false => exact hf
  | true =>
    show x ∉ quoteField f
    unfold quoteField
    simp only [List.mem_cons, List.mem_append, List.mem_singleton, not_or, List.not_mem_nil,
      or_false]
    refine ⟨hx, fun h => ?_, hx⟩
    rcases mem_escapeQuotes x f h with h | h
    · exact hx h
    · exact hf h

theorem even_count_serialiseField (qf : Bool × JsString) (h : qf.1 = false → '"' ∉ qf.2) :
    Even ((serialiseField qf).count '"') := by
  obtain ⟨q, f⟩ := qf
  cases q with
  | false =>
    show Even (f.count '"')
    rw [List.count_eq_zero_of_not_mem (h rfl)]
    exact even_zero
  | true =>
    show Even ((quoteField f).count '"')
    unfold quoteField
    rw [List.count_cons_self, List.count_append]
    have h1 : List.count '"' ['"'] = 1 := by decide
    rw [h1]
    have := even_count_escapeQuotes f
    rw [Nat.even_add_one, Nat.even_add_one, not_not]
    exact this

theorem noCut_serialiseField (qf : Bool × JsString) (h : qf.1 = false → ',' ∉ qf.2) :
    ∀ b, (',' :: b) <:+ serialiseField qf → ¬ Even (b.count '"') := by
  obtain ⟨q, f⟩ := qf
  cases q with
  | false =>
    intro b hb
    exact absurd (hb.subset (List.mem_cons_self _ _)) (h rfl)
  | true =>
    intro b hb
    have hb2 : (',' :: b) <:+ '"' :: (escapeQuotes f ++ ['"']) := hb
    rw [List.suffix_cons_iff] at hb2
    rcases hb2 with hb2 | hb2
    · simp at hb2
    · exact noCut_escapeQuotes f b hb2

theorem not_mem_serialiseRow (x : Char) (r : List (Bool × JsString)) (hx : x ≠ '"')
    (hc : x ≠ ',') (hr : ∀ qf ∈ r, x ∉ qf.2) :
    x ∉ List.intercalate [','] (r.map serialiseField) := by
  apply not_mem_intercalate
  · simpa using hc
  · intro l hl
    obtain ⟨qf, hqf, rfl⟩ := List.mem_map.mp hl
    exact not_mem_serialiseField x qf hx (hr qf hqf)

theorem not_mem_serialise (x : Char) (rows : List (List (Bool × JsString))) (hx : x ≠ '"')
    (hc : x ≠ ',') (hn : x ≠ '\n') (hr : ∀ r ∈ rows, ∀ qf ∈ r, x ∉ qf.2) :
    x ∉ serialise rows := by
  unfold serialise
  apply not_mem_intercalate
  · simpa using hn
  · intro l hl
    obtain ⟨r, hr2, rfl⟩ := List.mem_map.mp hl
    exact not_mem_serialiseRow x r hx hc (hr r hr2)

theorem parseRow_serialiseRow (r : List (Bool × JsString)) (hne : r ≠ [])
    (hq : ∀ qf ∈ r, qf.1 = false → '"' ∉ qf.2 ∧ ',' ∉ qf.2) :
    parseRow ',' (List.intercalate [','] (r.map serialiseField)) = r.map Prod.snd := by
  unfold parseRow
  rw [splitRow_intercalate _ (by simpa using hne) ?_ ?_, List.map_map]
  · apply List.map_congr_left
    intro qf hqf
    exact unquoteField_serialiseField qf (fun h => (hq qf hqf h).1)
  · intro s hs
    obtain ⟨qf, hqf, rfl⟩ := List.mem_map.mp hs
    exact even_count_serialiseField qf (fun h => (hq qf hqf h).1)
  · intro s hs
    obtain ⟨qf, hqf, rfl⟩ := List.mem_map.mp hs
    exact noCut_serialiseField qf (fun h => (hq qf hqf h).2)

theorem pickDelimiter_comma (first : JsString) (h1 : ';' ∉ first) (h2 : '\t' ∉ first) :
    pickDelimiter first = ',' := by
  have c1 : countMatches ';' first = 0 := List.count_eq_zero_of_not_mem h1
  have c2 : countMatches '\t' first = 0 := List.count_eq_zero_of_not_mem h2
  rcases pickDelimiter_cases first with ⟨h, _, _⟩ | ⟨_, h, _⟩ | ⟨_, _, h⟩
  · exact h
  · omega
  · omega

/-- C6: quoted-field round trip.  Take a non-empty list of rows, each a non-empty list of
fields, whose fields contain no CR, LF, semicolon or tab and none of which is a single
empty field; write each field either wrapped in double quotes with its double quotes
doubled, or verbatim when it contains neither a double quote nor a comma; join the fields
with commas and the rows with LF, the text not beginning with U+FEFF.  Then `parseCsv`
returns those rows with those field values, in order: the first row as `headers` and the
others as `rows` when no field of the first row has a numeric start, otherwise
`headers = null` and all rows in `rows`. -/
theorem quoted_round_trip (rows : List (List (Bool × JsString))) (first : List JsString)
    (rest : List (List JsString))
    (hrows : fieldValues rows = first :: rest)
    (hne : ∀ r ∈ rows, r ≠ [])
    (hchars : ∀ r ∈ rows, ∀ qf ∈ r, ∀ c ∈ qf.2, c ≠ '\r' ∧ c ≠ '\n' ∧ c ≠ ';' ∧ c ≠ '\t')
    (hempty : ∀ r ∈ rows, r.map Prod.snd ≠ [[]])
    (hverb : ∀ r ∈ rows, ∀ qf ∈ r, qf.1 = false → '"' ∉ qf.2 ∧ ',' ∉ qf.2)
    (hbom : (serialise rows).head? ≠ some bom) :
    parseCsv (serialise rows) =
      Except.ok (if first.all parseFloatIsNaN = true then { headers := some first, rows := rest }
        else { headers := none, rows := first :: rest }) := by
  have hrne : rows ≠ [] := by
    intro h
    rw [h] at hrows
    exact absurd hrows (by simp [fieldValues])
  have hnot : ∀ x : Char, (x = '\r' ∨ x = '\n' ∨ x = ';' ∨ x = '\t') →
      ∀ r ∈ rows, ∀ qf ∈ r, x ∉ qf.2 := by
    intro x hx r hr qf hqf hmem
    obtain ⟨h1, h2, h3, h4⟩ := hchars r hr qf hqf x hmem
    rcases hx with hx | hx | hx | hx
    · exact h1 hx
    · exact h2 hx
    · exact h3 hx
    · exact h4 hx
  -- the text is already normalised and carries no byte-order mark
  have hcr : '\r' ∉ serialise rows :=
    not_mem_serialise _ rows (by decide) (by decide) (by decide) (hnot _ (Or.inl rfl))
  have hpre : preprocess (serialise rows) = serialise rows := by
    unfold preprocess
    rw [normalizeLineEndings_eq, canonicalLF_of_not_mem _ hcr, stripBom_of_ne _ hbom]
  -- its lines are the serialised rows
  have hlines : splitLines (serialise rows) =
      rows.map (fun r => List.intercalate [','] (r.map serialiseField)) := by
    unfold serialise
    apply splitLines_intercalate _ (by simpa using hrne)
    intro l hl
    obtain ⟨r, hr, rfl⟩ := List.mem_map.mp hl
    exact not_mem_serialiseRow _ r (by decide) (by decide)
      (hnot _ (Or.inr (Or.inl rfl)) r hr)
  -- the first line holds neither a semicolon nor a tab, so the delimiter is the comma
  obtain ⟨r0, more, hr0⟩ : ∃ r0 more, rows = r0 :: more := by
    cases rows with
    | nil => exact absurd rfl hrne
    | cons r0 more => exact ⟨r0, more, rfl⟩
  have hdelim : activeDelimiter (serialise rows) = ',' := by
    have hl : splitLines (preprocess (serialise rows)) =
        List.intercalate [','] (r0.map serialiseField) ::
          more.map (fun r => List.intercalate [','] (r.map serialiseField)) := by
      rw [hpre, hlines, hr0]
      rfl
    rw [activeDelimiter_eq _ _ _ hl]
    have hr0mem : r0 ∈ rows := hr0 ▸ List.mem_cons_self _ _
    exact pickDelimiter_comma _
      (not_mem_serialiseRow _ r0 (by decide) (by decide)
        (hnot _ (Or.inr (Or.inr (Or.inl rfl))) r0 hr0mem))
      (not_mem_serialiseRow _ r0 (by decide) (by decide)
        (hnot _ (Or.inr (Or.inr (Or.inr rfl))) r0 hr0mem))
  -- every line parses to the field values of its row, and no row is dropped
  have hparse : parseRows ',' (serialise rows) = fieldValues rows := by
    unfold parseRows fieldValues
    rw [hlines, List.map_map]
    have hmap : List.map (parseRow ',' ∘ fun r => List.intercalate [','] (r.map serialiseField))
        rows = List.map (fun r => r.map Prod.snd) rows := by
      apply List.map_congr_left
      intro r hr
      exact parseRow_serialiseRow r (hne r hr) (hverb r hr)
    rw [hmap, List.filter_eq_self]
    intro row hrow
    obtain ⟨r, hr, rfl⟩ := List.mem_map.mp hrow
    rw [keepRow_eq]
    exact decide_eq_true (hempty r hr)
  rw [parseCsv_eq, hdelim, hpre, hparse, hrows, inferHeader_cons]

set_option maxRecDepth 100000 in
theorem quoted_round_trip_witness :
    serialise [[(false, "name".toList), (true, "value,with,commas".toList)],
        [(false, "alice".toList), (true, "1,2,3".toList)]] =
      "name,\"value,with,commas\"\nalice,\"1,2,3\"".toList ∧
    fieldValues [[(false, "name".toList), (true, "value,with,commas".toList)],
        [(false, "alice".toList), (true, "1,2,3".toList)]] =
      ["name".toList, "value,with,commas".toList] :: [["alice".toList, "1,2,3".toList]] ∧
    (serialise [[(false, "name".toList), (true, "value,with,commas".toList)],
        [(false, "alice".toList), (true, "1,2,3".toList)]]).head? ≠ some bom ∧
    parseCsv (serialise [[(false, "name".toList), (true, "value,with,commas".toList)],
        [(false, "alice".toList), (true, "1,2,3".toList)]]) =
      Except.ok { headers := some ["name".toList, "value,with,commas".toList],
                  rows := [["alice".toList, "1,2,3".toList]] } :=
  ⟨by decide, by decide, by decide,
    quoted_round_trip
      [[(false, "name".toList), (true, "value,with,commas".toList)],
        [(false, "alice".toList), (true, "1,2,3".toList)]]
      ["name".toList, "value,with,commas".toList] [["alice".toList, "1,2,3".toList]]
      (by decide) (by decide) (by decide) (by decide) (by decide) (by decide)⟩


/-! ## The result and the first line -/

theorem tail_filter_sublist (p : List JsString → Bool) (a : List JsString)
    (l : List (List JsString)) : List.Sublist ((a :: l).filter p).tail l := by
  rw [List.filter_cons]
  split_ifs
  · exact List.filter_sublist l
  · exact (List.tail_sublist _).trans (List.filter_sublist l)

theorem rows_of_inferHeader (rows : List (List JsString)) (r : ParseResult)
    (h : inferHeader rows = Except.ok r) :
    (r.headers ≠ none → r.rows = rows.tail) ∧ (r.headers = none → r.rows = rows) := by
  cases rows with
  | nil =>
    rw [inferHeader_nil] at h
    cases h
    exact ⟨fun _ => rfl, fun _ => rfl⟩
  | cons first rest =>
    rw [inferHeader_cons] at h
    have hr := Except.ok.inj h
    split_ifs at hr <;> subst hr
    · exact ⟨fun _ => rfl, fun hh => absurd hh (by simp)⟩
    · exact ⟨fun hh => absurd rfl hh, fun _ => rfl⟩

/-- C11, amended: when `headers` is present, every row of `rows` comes from a line that
strictly follows the first line of the text; when `headers` is `null`, `rows` holds every
row that survives the empty-row filter, and the row of the first line is its first element
unless the first line parses to the single empty field. -/
theorem parseResult_invariant (text : JsString) (r : ParseResult)
    (h : parseCsv text = Except.ok r) :
    (r.headers ≠ none →
        List.Sublist r.rows
          (((splitLines (preprocess text)).drop 1).map (parseRow (activeDelimiter text)))) ∧
      (r.headers = none →
        r.rows = parseRows (activeDelimiter text) (preprocess text) ∧
          ∀ first ∈ (splitLines (preprocess text)).head?,
            parseRow (activeDelimiter text) first ≠ [[]] →
              r.rows.head? = some (parseRow (activeDelimiter text) first)) := by
  rw [parseCsv_eq] at h
  obtain ⟨h1, h2⟩ := rows_of_inferHeader _ r h
  obtain ⟨l0, ls, hl⟩ := splitLines_eq_cons (preprocess text)
  constructor
  · intro hh
    rw [h1 hh, parseRows, hl, List.drop_succ_cons, List.drop_zero, List.map_cons]
    exact tail_filter_sublist _ _ _
  · intro hh
    refine ⟨h2 hh, ?_⟩
    intro first hfirst hne
    rw [hl] at hfirst
    cases hfirst
    rw [h2 hh, parseRows, hl, List.map_cons, List.filter_cons, keepRow_eq,
      if_pos (decide_eq_true hne)]
    rfl

set_option maxRecDepth 100000 in
theorem parseResult_invariant_witness :
    parseCsv "1,2\n3,4".toList =
        Except.ok { headers := none,
                    rows := [["1".toList, "2".toList], ["3".toList, "4".toList]] } ∧
      [["1".toList, "2".toList], ["3".toList, "4".toList]].head? =
        some (parseRow (activeDelimiter "1,2\n3,4".toList) "1,2".toList) :=
  ⟨by decide,
    ((parseResult_invariant "1,2\n3,4".toList
      { headers := none, rows := [["1".toList, "2".toList], ["3".toList, "4".toList]] }
      (by decide)).2 rfl).2 "1,2".toList (by decide) (by decide)⟩

set_option maxRecDepth 100000 in
/-- C11 as stated fails on the text LF `1,2`: `headers` is `null`, the first line is the
empty line, and its row `[""]` is dropped by the empty-row filter, so it is not in `rows`. -/
theorem first_line_not_in_rows :
    parseCsv "\n1,2".toList =
        Except.ok { headers := none, rows := [["1".toList, "2".toList]] } ∧
      (splitLines (preprocess "\n1,2".toList)).head? = some [] ∧
      parseRow (activeDelimiter "\n1,2".toList) [] ∉ [["1".toList, "2".toList]] := by
  decide

set_option maxRecDepth 100000 in
/-- C12, amended: on `a,b` LF LF `c,d` LF the blank line is removed and two rows are kept;
the first, `["a","b"]`, is inferred as header, and `rows` is exactly `[["c","d"]]`. -/
theorem blank_line_example :
    parseCsv "a,b\n\nc,d\n".toList =
        Except.ok { headers := some ["a".toList, "b".toList],
                    rows := [["c".toList, "d".toList]] } ∧
      keptRows { headers := some ["a".toList, "b".toList], rows := [["c".toList, "d".toList]] } =
        [["a".toList, "b".toList], ["c".toList, "d".toList]] := by
  decide

set_option maxRecDepth 100000 in
/-- C12 as stated fails: the rows of the result for `a,b` LF LF `c,d` LF are not
`[["a","b"],["c","d"]]`, since `["a","b"]` is returned as `headers`. -/
theorem blank_line_example_rows :
    ¬ ∃ r : ParseResult, parseCsv "a,b\n\nc,d\n".toList = Except.ok r ∧
      r.rows = [["a".toList, "b".toList], ["c".toList, "d".toList]] := by
  rintro ⟨r, hr, hrows⟩
  have h : parseCsv "a,b\n\nc,d\n".toList =
      Except.ok { headers := some ["a".toList, "b".toList],
                  rows := [["c".toList, "d".toList]] } := by decide
  rw [h] at hr
  have := Except.ok.inj hr
  subst this
  exact absurd hrows (by decide)

/-! ## Lookahead and scan -/

theorem splitRow_eq_scanSplit (d : Char) (hd : d ≠ '"') (row : JsString) (st : ScanState)
    (h : st = ScanState.unquoted ↔ Even (row.count '"')) :
    splitRow d row = scanSplit d st row := by
  unfold splitRow
  induction row generalizing st with
  | nil => rfl
  | cons c rest ih =>
    rw [splitBy, scanSplit]
    by_cases hq : c = '"'
    · subst hq
      have hcd : ('"' == d) = false := by
        rw [beq_eq_false_iff_ne]
        exact Ne.symm hd
      rw [hcd, Bool.false_and, if_neg (by simp), if_pos rfl]
      congr 1
      apply ih
      rw [List.count_cons_self, Nat.even_add_one] at h
      cases st with
      | unquoted =>
        have := h.mp rfl
        simp [ScanState.toggle, this]
      | quoted =>
        have : Even (rest.count '"') := by
          by_contra hne
          exact absurd (h.mpr hne) (by simp)
        simp [ScanState.toggle, this]
    · rw [if_neg hq]
      rw [List.count_cons_of_ne (Ne.symm hq)] at h
      by_cases hcd : c = d
      · subst hcd
        by_cases hst : st = ScanState.unquoted
        · have hl : lookahead rest = true := (lookahead_iff rest).mpr (h.mp hst)
          rw [if_pos (by simp [hl]), if_pos ⟨rfl, hst⟩, ih st h]
        · have hl : lookahead rest = false :=
            lookahead_eq_false rest (fun he => hst (h.mpr he))
          rw [if_neg (by simp [hl]), if_neg (fun hh => hst hh.2), ih st h]
      · rw [if_neg (by simp [hcd]), if_neg (fun hh => hcd hh.1), ih st h]

/-- C17, amended: for every candidate delimiter and every line with an even number of
double quotes, the split by the lookahead pattern equals the split by the two-state scan
that toggles on each double quote and cuts at a delimiter only while unquoted. -/
theorem lookahead_eq_scan (d : Char) (row : JsString) (hd : d ∈ delimiters)
    (heven : Even (row.count '"')) : splitRow d row = splitRowScan d row := by
  apply splitRow_eq_scanSplit d ?_ row ScanState.unquoted
  · exact ⟨fun _ => heven, fun _ => rfl⟩
  · intro h
    rw [h] at hd
    exact absurd hd (by decide)

set_option maxRecDepth 100000 in
theorem lookahead_eq_scan_witness :
    ',' ∈ delimiters ∧ Even ("a,\"b,c\",d".toList.count '"') ∧
      splitRow ',' "a,\"b,c\",d".toList = splitRowScan ',' "a,\"b,c\",d".toList ∧
      splitRowScan ',' "a,\"b,c\",d".toList = ["a".toList, "\"b,c\"".toList, "d".toList] :=
  ⟨by decide, by decide,
    lookahead_eq_scan ',' "a,\"b,c\",d".toList (by decide) (by decide), by decide⟩

set_option maxRecDepth 100000 in
/-- C17 as stated fails on a line with an odd number of double quotes: on `a,"b` the
lookahead finds an odd number of quotes after the comma and does not cut, the scan is
unquoted at the comma and cuts. -/
theorem lookahead_ne_scan :
    splitRow ',' "a,\"b".toList = ["a,\"b".toList] ∧
      splitRowScan ',' "a,\"b".toList = ["a".toList, "\"b".toList] ∧
      splitRow ',' "a,\"b".toList ≠ splitRowScan ',' "a,\"b".toList := by
  decide

/-! ## Trailing line feeds -/

theorem canonicalLF_cr_lf (rest : JsString) :
    canonicalLF ('\r' :: '\n' :: rest) = '\n' :: canonicalLF rest := by
  simp [canonicalLF]

theorem canonicalLF_cr_cons_ne (c2 : Char) (rest : JsString) (h2 : c2 ≠ '\n') :
    canonicalLF ('\r' :: c2 :: rest) = '\n' :: canonicalLF (c2 :: rest) := by
  rw [canonicalLF, if_pos rfl, if_neg h2]

theorem canonicalLF_append_lf (t : JsString) :
    canonicalLF (t ++ ['\n']) = canonicalLF t ∨
      canonicalLF (t ++ ['\n']) = canonicalLF t ++ ['\n'] := by
  induction t using two_step_induction with
  | h0 => right; rfl
  | h1 c =>
    by_cases hc : c = '\r'
    · left
      simp [canonicalLF, hc]
    · right
      simp [canonicalLF, hc]
  | h2 c c2 rest ih1 ih2 =>
    by_cases hc : c = '\r'
    · subst hc
      by_cases h2 : c2 = '\n'
      · subst h2
        show canonicalLF ('\r' :: '\n' :: (rest ++ ['\n'])) = _ ∨
          canonicalLF ('\r' :: '\n' :: (rest ++ ['\n'])) = _
        rw [canonicalLF_cr_lf, canonicalLF_cr_lf]
        rcases ih1 with ih | ih
        · left; rw [ih]
        · right; rw [ih]; rfl
      · show canonicalLF ('\r' :: c2 :: (rest ++ ['\n'])) = _ ∨
          canonicalLF ('\r' :: c2 :: (rest ++ ['\n'])) = _
        rw [canonicalLF_cr_cons_ne _ _ h2, canonicalLF_cr_cons_ne _ _ h2]
        rcases ih2 with ih | ih
        · left; exact congrArg _ ih
        · right; exact congrArg _ ih
    · show canonicalLF (c :: ((c2 :: rest) ++ ['\n'])) = _ ∨
        canonicalLF (c :: ((c2 :: rest) ++ ['\n'])) = _
      rw [canonicalLF_cons_of_ne c _ hc, canonicalLF_cons_of_ne c _ hc]
      rcases ih2 with ih | ih
      · left; exact congrArg _ ih
      · right; exact congrArg _ ih

theorem stripBom_append_lf (s : JsString) : stripBom (s ++ ['\n']) = stripBom s ++ ['\n'] := by
  cases s with
  | nil => decide
  | cons c s =>
    unfold stripBom
    simp only [List.cons_append, List.head?_cons, Option.map_some']
    split_ifs <;> rfl

theorem preprocess_append_lf (t : JsString) :
    preprocess (t ++ ['\n']) = preprocess t ∨
      preprocess (t ++ ['\n']) = preprocess t ++ ['\n'] := by
  unfold preprocess
  rw [normalizeLineEndings_eq, normalizeLineEndings_eq]
  rcases canonicalLF_append_lf t with h | h
  · left
    rw [h]
  · right
    rw [h, stripBom_append_lf]

theorem splitBy_lf_append (p : JsString) :
    splitLines (p ++ ['\n']) = splitLines p ++ [[]] := by
  unfold splitLines
  induction p with
  | nil => rfl
  | cons c p ih =>
    rw [List.cons_append, splitBy, splitBy, ih]
    obtain ⟨f, fs, hfs⟩ : ∃ f fs, splitBy (fun c _ => c == '\n') p = f :: fs := by
      cases h : splitBy (fun c _ => c == '\n') p with
      | nil => exact absurd h (splitBy_ne_nil _ p)
      | cons f fs => exact ⟨f, fs, rfl⟩
    rw [hfs]
    split_ifs <;> rfl

theorem parseRows_append_lf (d : Char) (p : JsString) :
    parseRows d (p ++ ['\n']) = parseRows d p := by
  unfold parseRows
  rw [splitBy_lf_append, List.map_append, List.filter_append]
  have : List.filter keepRow (List.map (parseRow d) [[]]) = [] := rfl
  rw [this, List.append_nil]

theorem activeDelimiter_congr (t t2 : JsString)
    (h : (splitLines (preprocess t)).head? = (splitLines (preprocess t2)).head?) :
    activeDelimiter t = activeDelimiter t2 := by
  obtain ⟨f, fs, hf⟩ := splitLines_eq_cons (preprocess t)
  obtain ⟨g, gs, hg⟩ := splitLines_eq_cons (preprocess t2)
  rw [hf, hg] at h
  simp only [List.head?_cons, Option.some.injEq] at h
  rw [activeDelimiter_eq t f fs hf, activeDelimiter_eq t2 g gs hg, h]

theorem parseCsv_append_lf (t : JsString) : parseCsv (t ++ ['\n']) = parseCsv t := by
  rcases preprocess_append_lf t with h | h
  · exact parseCsv_congr _ _ h
  · have hd : activeDelimiter (t ++ ['\n']) = activeDelimiter t := by
      apply activeDelimiter_congr
      rw [h, splitBy_lf_append]
      obtain ⟨f, fs, hf⟩ := splitLines_eq_cons (preprocess t)
      rw [hf]
      rfl
    rw [parseCsv_eq, parseCsv_eq, hd, h, parseRows_append_lf]

/-- C18: trailing line feeds do not matter.  For every text `t`, `parseCsv` of `t`
followed by LF equals `parseCsv t`, and so does `parseCsv` of `t` followed by any number
of LF characters. -/
theorem trailing_line_feeds (t : JsString) :
    parseCsv (t ++ ['\n']) = parseCsv t ∧
      ∀ n : Nat, parseCsv (t ++ List.replicate n '\n') = parseCsv t := by
  refine ⟨parseCsv_append_lf t, ?_⟩
  intro n
  induction n with
  | zero => simp
  | succ n ih =>
    rw [List.replicate_succ', ← List.append_assoc, parseCsv_append_lf, ih]

/-! ## Data URLs -/

theorem splitBy_eq_takeWhile (sep : Char) (s : JsString) :
    splitBy (fun c _ => c == sep) s =
      s.takeWhile (fun c => c != sep) ::
        (match s.dropWhile (fun c => c != sep) with
          | [] => []
          | _ :: rest => splitBy (fun c _ => c == sep) rest) := by
  induction s with
  | nil => rfl
  | cons c rest ih =>
    rw [splitBy]
    by_cases h : c = sep
    · subst h
      simp [List.takeWhile, List.dropWhile]
    · have h1 : (c == sep) = false := beq_eq_false_iff_ne.mpr h
      have h2 : (c != sep) = true := by simp [bne, h1]
      rw [if_neg (by simp [h1]), ih, List.takeWhile_cons, List.dropWhile_cons, h2]
      rfl

theorem not_mem_of_mem_splitBy (sep : Char) (s f : JsString)
    (hf : f ∈ splitBy (fun c _ => c == sep) s) : sep ∉ f := by
  induction s generalizing f with
  | nil =>
    simp only [splitBy, List.mem_singleton] at hf
    rw [hf]
    exact List.not_mem_nil _
  | cons c rest ih =>
    rw [splitBy] at hf
    obtain ⟨g, gs, hg⟩ : ∃ g gs, splitBy (fun c _ => c == sep) rest = g :: gs := by
      cases h : splitBy (fun c _ => c == sep) rest with
      | nil => exact absurd h (splitBy_ne_nil _ rest)
      | cons g gs => exact ⟨g, gs, rfl⟩
    by_cases h : c = sep
    · rw [if_pos (by simp [h])] at hf
      rcases List.mem_cons.mp hf with hf | hf
      · rw [hf]
        exact List.not_mem_nil _
      · exact ih f hf
    · rw [if_neg (by simp [h]), hg, consHead] at hf
      rcases List.mem_cons.mp hf with hf | hf
      · rw [hf]
        intro hmem
        rcases List.mem_cons.mp hmem with hm | hm
        · exact h hm.symm
        · exact ih g (hg ▸ List.mem_cons_self _ _) hm
      · exact ih f (hg ▸ List.mem_cons_of_mem _ hf)

theorem substring_from (s : JsString) (n : Nat) : substring s n s.length = s.drop n := by
  unfold substring
  simp only [Nat.min_self]
  rw [Nat.max_eq_right (Nat.min_le_right _ _), Nat.min_eq_left (Nat.min_le_right _ _),
    List.take_length]
  by_cases h : n ≤ s.length
  · rw [Nat.min_eq_left h]
  · rw [Nat.min_eq_right (by omega), List.drop_length, List.drop_eq_nil_of_le (by omega)]

theorem splitBy_getElem_zero (sep : Char) (s : JsString) :
    (splitBy (fun c _ => c == sep) s)[0]? = some (s.takeWhile (fun c => c != sep)) := by
  rw [splitBy_eq_takeWhile, List.getElem?_cons_zero]

theorem splitBy_comma_getElem_one (url : JsString) :
    (splitBy (fun c _ => c == ',') (url.drop 5))[1]? = dataUrlPayload url := by
  rw [splitBy_eq_takeWhile, dataUrlPayload, List.getElem?_cons_succ]
  cases List.dropWhile (fun c => c != ',') (List.drop 5 url) with
  | nil => rfl
  | cons c rest => exact splitBy_getElem_zero ',' rest

theorem parseDataUrl_eq (url : JsString) (h : "data:".toList.isPrefixOf url = true) :
    parseDataUrl url =
      Except.ok (some
        { mime := headerMime (dataUrlHeader url),
          isBase64 :=
            (splitBy (fun c _ => c == ';') (dataUrlHeader url)).contains "base64".toList,
          text := decodePayload
            ((splitBy (fun c _ => c == ';') (dataUrlHeader url)).contains "base64".toList)
            (dataUrlPayload url) }) := by
  unfold parseDataUrl
  simp only [h, substring_from, splitBy_getElem_zero, splitBy_comma_getElem_one,
    Bool.not_true, Bool.false_eq_true, if_false]
  rfl

/-- C13: the structure of `parseDataUrl`.  It returns `null` exactly when the URL does not
start with `data:`; otherwise, with the header the text between `data:` and the first
comma, `mime` is the part of the header before its first semicolon, or `text/plain` when
that part is empty, and `isBase64` tells whether one of the segments of the header
between semicolons is `base64`. -/
theorem parseDataUrl_structure (url : JsString) :
    (parseDataUrl url = Except.ok none ↔ "data:".toList.isPrefixOf url = false) ∧
      ("data:".toList.isPrefixOf url = true →
        ∃ (segs : List JsString) (text : JsString),
          List.intercalate [';'] segs = dataUrlHeader url ∧ (∀ s ∈ segs, ';' ∉ s) ∧
          parseDataUrl url =
            Except.ok (some { mime := headerMime (dataUrlHeader url),
                              isBase64 := decide ("base64".toList ∈ segs),
                              text := text })) := by
  constructor
  · constructor
    · intro h
      by_contra hne
      rw [Bool.not_eq_false] at hne
      rw [parseDataUrl_eq url hne] at h
      exact absurd (Except.ok.inj h) (by simp)
    · intro h
      unfold parseDataUrl
      rw [h]
      rfl
  · intro h
    refine ⟨splitBy (fun c _ => c == ';') (dataUrlHeader url),
      decodePayload
        ((splitBy (fun c _ => c == ';') (dataUrlHeader url)).contains "base64".toList)
        (dataUrlPayload url),
      intercalate_splitBy ';' _ (fun c _ hc => by simpa using hc) _,
      fun s hs => not_mem_of_mem_splitBy ';' _ s hs, ?_⟩
    rw [parseDataUrl_eq url h]
    congr 3
    simp

set_option maxRecDepth 100000 in
theorem parseDataUrl_structure_witness :
    parseDataUrl "data:text/csv;charset=utf-8;base64,YSxi".toList =
        Except.ok (some { mime := "text/csv".toList, isBase64 := true, text := "a,b".toList }) ∧
      parseDataUrl "data:;x,hi".toList =
        Except.ok (some { mime := "text/plain".toList, isBase64 := false,
                          text := "hi".toList }) ∧
      (parseDataUrl "datum".toList = Except.ok none) :=
  ⟨by decide, by decide,
    (parseDataUrl_structure "datum".toList).1.mpr (by decide)⟩

set_option maxRecDepth 100000 in
/-- C14 fails on the code: on `data:text/plain,a,b` the payload after the first comma is
`a,b`, whose percent-decoding is `a,b`, but `parts[1]` is only `a` and the returned text is
`a`. -/
theorem parseDataUrl_payload_with_comma :
    parseDataUrl "data:text/plain,a,b".toList =
        Except.ok (some { mime := "text/plain".toList, isBase64 := false,
                          text := "a".toList }) ∧
      decodeURIComponent "a,b".toList = Except.ok "a,b".toList := by
  decide

/-- What the `catch` branches do: `decodeBase64ToText` returns `''` when `atob` rejects
its argument; for a URL that starts with `data:`, `parseDataUrl` returns a record without
throwing, and its `text` is `''` whenever `atob`, respectively `decodeURIComponent`,
rejects the variable `payload`, which is only the part of the payload before its first
comma. -/
theorem decoding_failure_gives_empty (b64 url : JsString) :
    ((∃ e, atob b64 = Except.error e) → decodeBase64ToText b64 = []) ∧
      ("data:".toList.isPrefixOf url = true →
        ∃ r : DataUrl, parseDataUrl url = Except.ok (some r) ∧
          (r.isBase64 = true →
            (∃ e, atob (toStringArg (dataUrlPayload url)) = Except.error e) → r.text = []) ∧
          (r.isBase64 = false →
            (∃ e, decodeURIComponent (toStringArg (dataUrlPayload url)) = Except.error e) →
              r.text = [])) := by
  constructor
  · rintro ⟨e, he⟩
    rw [decodeBase64ToText, he]
  · intro h
    refine ⟨_, parseDataUrl_eq url h, ?_, ?_⟩
    · rintro hb ⟨e, he⟩
      have hb2 : (splitBy (fun c _ => c == ';') (dataUrlHeader url)).contains
          "base64".toList = true := hb
      show decodePayload _ _ = []
      rw [decodePayload, hb2, if_pos rfl, he]
    · rintro hb ⟨e, he⟩
      have hb2 : (splitBy (fun c _ => c == ';') (dataUrlHeader url)).contains
          "base64".toList = false := hb
      show decodePayload _ _ = []
      rw [decodePayload, hb2, if_neg (by decide), he]

set_option maxRecDepth 100000 in
theorem decoding_failure_gives_empty_witness :
    atob "a".toList = Except.error DecodeError.invalidCharacter ∧
      decodeBase64ToText "a".toList = [] ∧
      decodeURIComponent "%E0%80".toList = Except.error DecodeError.uriError ∧
      parseDataUrl "data:,%E0%80".toList =
        Except.ok (some { mime := "text/plain".toList, isBase64 := false, text := [] }) ∧
      parseDataUrl "data:;base64,a".toList =
        Except.ok (some { mime := "text/plain".toList, isBase64 := true, text := [] }) :=
  ⟨by decide,
    (decoding_failure_gives_empty "a".toList "data:,%E0%80".toList).1
      ⟨DecodeError.invalidCharacter, by decide⟩,
    by decide, by decide, by decide⟩

set_option maxRecDepth 100000 in
/-- C15 fails on the code: on `data:,a,%E0%80` the payload, everything after the first
comma, is `a,%E0%80`, and its percent-decoding throws a `URIError`, so `text` should be
`''`; but `parts[1]` is only `a`, which decodes, and the returned text is `a`.  The defect
is the one of C14: the payload is cut at its first comma. -/
theorem parseDataUrl_failure_not_reported :
    dataUrlData "data:,a,%E0%80".toList = some "a,%E0%80".toList ∧
      decodeURIComponent "a,%E0%80".toList = Except.error DecodeError.uriError ∧
      dataUrlPayload "data:,a,%E0%80".toList = some "a".toList ∧
      parseDataUrl "data:,a,%E0%80".toList =
        Except.ok (some { mime := "text/plain".toList, isBase64 := false,
                          text := "a".toList }) := by
  decide

/-! ## HTTP errors -/

/-- C16, amended: the error mapping of `fetchUserCreationDate`, as a function of the
outcome of `fetch`.  A response that is not ok fails with `User not found` for status 404,
with the rate-limit message for status 403, and with `API error: ` followed by the status
in every other case; a `TypeError` from `fetch` fails with the network message; an ok
response whose body `response.json()` resolves to a value other than `null` succeeds with
the property `created_at` of that value. -/
theorem http_error_mapping {α : Type} (fetch : FetchRequest → Except JsThrown (FetchResponse α))
    (username : JsString) (token : Option JsString) :
    (∀ resp, fetch (buildRequest username token) = Except.ok resp → resp.ok = false →
        resp.status = 404 →
        fetchUserCreationDate fetch username token =
          Except.error (JsThrown.error "User not found".toList)) ∧
      (∀ resp, fetch (buildRequest username token) = Except.ok resp → resp.ok = false →
        resp.status = 403 →
        fetchUserCreationDate fetch username token =
          Except.error (JsThrown.error
            "Rate limit exceeded. Please try again later or provide a token.".toList)) ∧
      (∀ resp, fetch (buildRequest username token) = Except.ok resp → resp.ok = false →
        resp.status ≠ 404 → resp.status ≠ 403 →
        fetchUserCreationDate fetch username token =
          Except.error (JsThrown.error ("API error: ".toList ++ Nat.toDigits 10 resp.status))) ∧
      (fetch (buildRequest username token) = Except.error JsThrown.typeError →
        fetchUserCreationDate fetch username token =
          Except.error (JsThrown.error
            "Network error. Please check your connection.".toList)) ∧
      (∀ resp createdAt, fetch (buildRequest username token) = Except.ok resp →
        resp.ok = true → resp.json = Except.ok (JsonData.value createdAt) →
        fetchUserCreationDate fetch username token = Except.ok createdAt) := by
  refine ⟨?_, ?_, ?_, ?_, ?_⟩
  · intro resp h hok hs
    simp [fetchUserCreationDate, tryFetch, catchFetch, h, hok, hs]
  · intro resp h hok hs
    simp [fetchUserCreationDate, tryFetch, catchFetch, h, hok, hs]
  · intro resp h hok h4 h3
    simp [fetchUserCreationDate, tryFetch, catchFetch, h, hok, h4, h3]
  · intro h
    simp [fetchUserCreationDate, tryFetch, catchFetch, h]
  · intro resp createdAt h hok hj
    simp [fetchUserCreationDate, tryFetch, catchFetch, h, hok, hj]

set_option maxRecDepth 100000 in
theorem http_error_mapping_witness :
    fetchUserCreationDate
        (fun _ => Except.ok { ok := false, status := 500,
                              json := Except.ok (JsonData.value "x".toList) })
        "octocat".toList none =
      Except.error (JsThrown.error "API error: 500".toList) ∧
    fetchUserCreationDate
        (fun _ => Except.ok { ok := true, status := 200,
                              json := Except.ok (JsonData.value "2011-01-25T18:44:36Z".toList) })
        "octocat".toList (some "t".toList) =
      Except.ok "2011-01-25T18:44:36Z".toList :=
  ⟨((http_error_mapping
      (fun _ => Except.ok { ok := false, status := 500,
                            json := Except.ok (JsonData.value "x".toList) })
      "octocat".toList none).2.2.1 _ rfl rfl (by decide) (by decide)).trans (by decide),
    (http_error_mapping
      (fun _ => Except.ok { ok := true, status := 200,
                            json := Except.ok (JsonData.value "2011-01-25T18:44:36Z".toList) })
      "octocat".toList (some "t".toList)).2.2.2.2 _ _ rfl rfl rfl⟩

/-- C16 as stated fails for an ok response whose JSON body is `null`: reading
`created_at` of `null` throws a `TypeError`, which the `catch` block replaces by the
network message, so the call does not succeed; and when `response.json()` rejects, as it
does for a body that is not JSON, the rejection is thrown again. -/
theorem ok_response_without_body_value :
    fetchUserCreationDate
        (fun _ => Except.ok { ok := true, status := 200, json := Except.ok JsonData.null })
        "octocat".toList none =
      (Except.error (JsThrown.error "Network error. Please check your connection.".toList) :
        Except JsThrown JsString) ∧
    fetchUserCreationDate
        (fun _ => Except.ok { ok := true, status := 200,
                              json := Except.error (JsThrown.other 0) })
        "octocat".toList none =
      (Except.error (JsThrown.other 0) : Except JsThrown JsString) :=
  ⟨rfl, rfl⟩

end Script
